import Mathlib

/-!
Verification of the Dijkstra shortest-path engine (subway, `src/dijkstra.rs`).

The Rust source is shallowly embedded as executable Lean definitions:

* `WeightOps` is the `Weight` trait: `add`, `zero`, `infinity`, `is_infinity`
  and the total comparison `cmp` that the `Ord` supertrait supplies.
  `LawfulW` bundles the contract the spec imposes on a weight algebra
  (lawful total order, monotone non-negative `add`, `infinity` maximal).
* A caller's graph is a vertex type `V` with decidable equality (the
  `Eq + Hash` identity contract) together with `edgesOf : V → List (V × α)`
  (the `Vertex::edges` method: each edge exposes its destination vertex and
  its weight, as `Edge::get_to` / `Edge::get_weight` do).
* `Dijkstra.new` mirrors the constructor: the vertex list in iteration
  order plus the identity→index map built by successive `HashMap` inserts
  (`hmInsert` / `hmGet` model insert-overwrites-earlier and lookup).
* `findShortedPath` mirrors `find_shorted_path` line by line: tentative
  weights initialised to `infinity`, start/end sets filtered through the
  map, a frontier with lazy deletion, the relaxation loop, and backpointer
  reconstruction.

Two points where the Rust program is not a function are resolved as
follows, and are the only deliberate deviations:

* `BinaryHeap` pop order among `cmp`-equal entries is unspecified, and the
  `HashSet` iteration order used when seeding the frontier is randomized
  per run.  The model fixes a deterministic refinement: the frontier is the
  list of pushed entries in push order, a pop removes the earliest entry of
  minimal weight, and the start set keeps first occurrences in input order.
  Every lemma below about pops uses only "a popped entry is a minimal
  element and the rest survive", which any heap satisfies.
* Indexing a `Vec` out of bounds panics in Rust; the model uses `getD` with
  a default.  All indices reaching those sites are shown to be in range
  (fields of the `Inv` structure below), so the default is never read.
  The two `unwrap()` sites that can genuinely fire are kept as explicit
  outcomes: `panicPop` (pop of an empty frontier) and `panicLookup`
  (`v_to_index_map.get(..).unwrap()` on an unknown edge destination).
  The loops run on fuel large enough to be exact: the main loop visits a
  fresh vertex per iteration so `|V| + 1` frames suffice, and a
  reconstruction that would not terminate in Rust (a real possibility, see
  the C2 counterexample's discussion) yields `fuelOut`.
-/

section Defs

variable {V : Type} {α : Type}

/-- The `Weight` trait together with the `Ord` supertrait's `cmp`. -/
structure WeightOps (α : Type) where
  add : α → α → α
  zero : α
  infinity : α
  isInfinity : α → Bool
  cmp : α → α → Ordering

/-- `a ≤ b` in a weight algebra: the comparison does not say `gt`. -/
def wle (W : WeightOps α) (a b : α) : Prop := W.cmp a b ≠ Ordering.gt

/-- `a < b` in a weight algebra: the comparison says `lt`. -/
def wlt (W : WeightOps α) (a b : α) : Prop := W.cmp a b = Ordering.lt

instance (W : WeightOps α) (a b : α) : Decidable (wle W a b) :=
  inferInstanceAs (Decidable (W.cmp a b ≠ Ordering.gt))

instance (W : WeightOps α) (a b : α) : Decidable (wlt W a b) :=
  inferInstanceAs (Decidable (W.cmp a b = Ordering.lt))

/-- The weight-algebra contract of the spec: `cmp` is a lawful total
comparison (`Ord`), `add` is monotone and non-negative in the sense
`add a b ≥ a` plus monotone in its left operand, and `infinity` is an
upper bound of everything. -/
structure LawfulW (W : WeightOps α) : Prop where
  swap_cmp : ∀ a b, (W.cmp a b).swap = W.cmp b a
  le_trans : ∀ a b c, wle W a b → wle W b c → wle W a c
  le_add_left : ∀ a b, wle W a (W.add a b)
  add_le_add : ∀ a b c, wle W a b → wle W (W.add a c) (W.add b c)
  le_infinity : ∀ a, wle W a W.infinity

/-- `HashMap` insert: replace the entry of an equal key, else append. -/
def hmInsert [DecidableEq V] (m : List (V × Nat)) (k : V) (i : Nat) :
    List (V × Nat) :=
  match m with
  | [] => [(k, i)]
  | (k', i') :: rest =>
      if k' = k then (k, i) :: rest else (k', i') :: hmInsert rest k i

/-- `HashMap` lookup. -/
def hmGet [DecidableEq V] (m : List (V × Nat)) (k : V) : Option Nat :=
  match m with
  | [] => none
  | (k', i') :: rest => if k' = k then some i' else hmGet rest k

/-- The index map built by `Dijkstra::new`: insert `(v, i)` for each vertex
in iteration order, so a later equal vertex overwrites the earlier index. -/
def buildMapGo [DecidableEq V] (i : Nat) (m : List (V × Nat)) :
    List V → List (V × Nat)
  | [] => m
  | v :: rest => buildMapGo (i + 1) (hmInsert m v i) rest

/-- Index of the last occurrence of `v` in `l` (specification of the map). -/
def lastIdx [DecidableEq V] : List V → V → Option Nat
  | [], _ => none
  | x :: xs, v =>
      match lastIdx xs v with
      | some k => some (k + 1)
      | none => if x = v then some 0 else none

/-- The engine: the vertex list and the identity→index map. -/
structure Dijkstra (V : Type) where
  graph : List V
  v_to_index_map : List (V × Nat)

/-- `Dijkstra::new`: collect the vertices and build the index map. -/
def Dijkstra.new [DecidableEq V] (list : List V) : Dijkstra V :=
  { graph := list, v_to_index_map := buildMapGo 0 [] list }

/-- `HashSet::from_iter` on indices: keep the first occurrence of each. -/
def dedupFirst (seen : List Nat) : List Nat → List Nat
  | [] => []
  | x :: xs =>
      if x ∈ seen then dedupFirst seen xs else x :: dedupFirst (x :: seen) xs

/-- Outcome of `find_shorted_path`: a returned `(route, weight)` pair, one
of the two `unwrap()` panics, or fuel exhaustion (which stands for the
non-terminating reconstruction loop; the main loop's fuel is never the
binding constraint, see `loopGo`). -/
inductive FSPResult (V : Type) (α : Type) where
  | ok : List V → α → FSPResult V α
  | panicPop : FSPResult V α
  | panicLookup : FSPResult V α
  | fuelOut : FSPResult V α
  deriving DecidableEq

/-- `BinaryHeap::pop` through the reversed `Ord` of `UnvisitedVertex`:
remove an entry of minimal weight (the earliest pushed among ties) and
return it with the remaining entries. -/
def heapPop (W : WeightOps α) : List (Nat × α) → Option ((Nat × α) × List (Nat × α))
  | [] => none
  | e :: rest =>
      match heapPop W rest with
      | none => some (e, [])
      | some (m, rest') =>
          if W.cmp e.2 m.2 = Ordering.gt then some (m, e :: rest')
          else some (e, rest)

/-- The inner `while visiteds[next_index]` loop: pop entries, discarding
those whose index is already visited, until an unvisited one appears;
`none` models the `pop().unwrap()` panic on an exhausted frontier.  The
fuel is called with `heap.length + 1`, which is always enough. -/
def popUnvisited (W : WeightOps α) (vis : List Bool) :
    Nat → List (Nat × α) → Option ((Nat × α) × List (Nat × α))
  | 0, _ => none
  | fuel + 1, heap =>
      match heapPop W heap with
      | none => none
      | some (p, rest) =>
          if vis.getD p.1 false then popUnvisited W vis fuel rest
          else some (p, rest)

/-- The per-query mutable state touched by relaxation: tentative weights,
backpointers and the frontier. -/
structure TState (α : Type) where
  weights : List α
  backtracker : List Nat
  heap : List (Nat × α)

/-- One iteration of the `for edge in now_vertex.edges()` body: look the
destination up (`unwrap` = `none`), skip visited destinations, update
weight and backpointer on strict improvement, and always push a frontier
entry carrying the current tentative weight of the destination. -/
def relaxOne [DecidableEq V] (W : WeightOps α) (map : List (V × Nat))
    (vis : List Bool) (now : Nat) (wsum : α) (st : TState α) (p : V × α) :
    Option (TState α) :=
  match hmGet map p.1 with
  | none => none
  | some toI =>
      if vis.getD toI false then some st
      else
        let added := W.add wsum p.2
        let st1 :=
          if W.cmp (st.weights.getD toI W.infinity) added = Ordering.gt then
            { st with weights := st.weights.set toI added,
                      backtracker := st.backtracker.set toI now }
          else st
        some { st1 with heap := st1.heap ++ [(toI, st1.weights.getD toI W.infinity)] }

/-- The whole `for` loop over the current vertex's outgoing edges. -/
def relaxEdges [DecidableEq V] (W : WeightOps α) (map : List (V × Nat))
    (vis : List Bool) (now : Nat) (wsum : α) :
    List (V × α) → TState α → Option (TState α)
  | [], st => some st
  | p :: rest, st =>
      match relaxOne W map vis now wsum st p with
      | none => none
      | some st' => relaxEdges W map vis now wsum rest st'

/-- The `for &i in start_set.iter()` loop: set each start's tentative
weight to zero and push a frontier entry carrying it. -/
def initStarts (W : WeightOps α) :
    List Nat → List α → List (Nat × α) → List α × List (Nat × α)
  | [], ws, heap => (ws, heap)
  | i :: rest, ws, heap =>
      let ws' := ws.set i W.zero
      initStarts W rest ws' (heap ++ [(i, ws'.getD i W.infinity)])

/-- The reconstruction loop: prepend the vertex at the current index and
follow its backpointer until the current index is a start (prepended too).
Fuel exhaustion models the infinite loop Rust runs into when the
backpointer chain never meets the start set. -/
def reconstruct [Inhabited V] (graph : List V) (bt : List Nat)
    (startIdxs : List Nat) : Nat → Nat → List V → Option (List V)
  | 0, _, _ => none
  | fuel + 1, now, acc =>
      if now ∈ startIdxs then some (graph.getD now default :: acc)
      else reconstruct graph bt startIdxs fuel (bt.getD now 0)
        (graph.getD now default :: acc)

/-- The `while !end_set.contains(&now)` loop.  Each iteration relaxes the
edges of the current vertex, marks it visited and pops the next unvisited
frontier entry.  Every iteration visits a vertex that was unvisited, so
with fuel `graph.length + 1` the fuel never runs out before the loop ends
by exit, `panicLookup` or `panicPop`. -/
def loopGo [DecidableEq V] [Inhabited V] (W : WeightOps α) (D : Dijkstra V)
    (edgesOf : V → List (V × α)) (startIdxs endIdxs : List Nat) :
    Nat → List α → List Nat → List Bool → List (Nat × α) → Nat → α →
    FSPResult V α
  | 0, _, _, _, _, _, _ => FSPResult.fuelOut
  | fuel + 1, ws, bt, vis, heap, now, wsum =>
      if now ∈ endIdxs then
        match reconstruct D.graph bt startIdxs (D.graph.length + 1) now [] with
        | none => FSPResult.fuelOut
        | some route => FSPResult.ok route wsum
      else
        match relaxEdges W D.v_to_index_map vis now wsum
            (edgesOf (D.graph.getD now default)) ⟨ws, bt, heap⟩ with
        | none => FSPResult.panicLookup
        | some st =>
            let vis' := vis.set now true
            match popUnvisited W vis' (st.heap.length + 1) st.heap with
            | none => FSPResult.panicPop
            | some (p, heap') =>
                loopGo W D edgesOf startIdxs endIdxs fuel
                  st.weights st.backtracker vis' heap' p.1 p.2

/-- `find_shorted_path`: filter the start and end sets through the index
map, initialise the traversal state, pop the first frontier entry
(`unwrap` = `panicPop` when no start survived) and run the loop. -/
def findShortedPath [DecidableEq V] [Inhabited V] (W : WeightOps α)
    (D : Dijkstra V) (edgesOf : V → List (V × α)) (starts ends : List V) :
    FSPResult V α :=
  let startIdxs := dedupFirst [] (starts.filterMap (hmGet D.v_to_index_map))
  let endIdxs := dedupFirst [] (ends.filterMap (hmGet D.v_to_index_map))
  let n := D.graph.length
  let init := initStarts W startIdxs (List.replicate n W.infinity) []
  match heapPop W init.2 with
  | none => FSPResult.panicPop
  | some (p, heap1) =>
      loopGo W D edgesOf startIdxs endIdxs (n + 1) init.1
        (List.replicate n 0) (List.replicate n false) heap1 p.1 p.2

/-- An edge of the indexed graph: the vertex at index `u` has an outgoing
edge of weight `w` whose destination vertex maps to index `v`. -/
def HasEdge (D : Dijkstra V) (edgesOf : V → List (V × α)) [DecidableEq V]
    (u v : Nat) (w : α) : Prop :=
  ∃ vu, D.graph.get? u = some vu ∧
    ∃ tv, (tv, w) ∈ edgesOf vu ∧ hmGet D.v_to_index_map tv = some v

/-- `Reach S v s`: there is a path (a finite edge walk) from some vertex of
the start-index set `S` to index `v` whose weights, added up left to right
starting from `zero`, give `s`. -/
inductive Reach [DecidableEq V] (W : WeightOps α) (D : Dijkstra V)
    (edgesOf : V → List (V × α)) (S : List Nat) : Nat → α → Prop where
  | base (i : Nat) : i ∈ S → Reach W D edgesOf S i W.zero
  | step (u v : Nat) (w s : α) : Reach W D edgesOf S u s →
      HasEdge D edgesOf u v w → Reach W D edgesOf S v (W.add s w)

/-- Pure reachability from the start-index set, ignoring weights. -/
inductive ReachIdx [DecidableEq V] (D : Dijkstra V)
    (edgesOf : V → List (V × α)) (S : List Nat) : Nat → Prop where
  | base (i : Nat) : i ∈ S → ReachIdx D edgesOf S i
  | step (u v : Nat) (w : α) : ReachIdx D edgesOf S u →
      HasEdge D edgesOf u v w → ReachIdx D edgesOf S v

/-- `EdgeChain edgesOf route ws`: the route is non-empty and each consecutive
pair of its vertices is connected by an edge of the graph carrying the
corresponding weight of `ws`. -/
def EdgeChain (edgesOf : V → List (V × α)) : List V → List α → Prop
  | [], _ => False
  | [_], [] => True
  | [_], _ :: _ => False
  | _ :: _ :: _, [] => False
  | v :: v' :: rest, w :: ws => (v', w) ∈ edgesOf v ∧ EdgeChain edgesOf (v' :: rest) ws

/-- Number of `false` entries of the visited array (loop variant). -/
def countFalse : List Bool → Nat
  | [] => 0
  | b :: rest => (if b then 0 else 1) + countFalse rest

/-- Facts relating the state after the relaxation loop of one vertex to the
state `⟨ws, bt, heap⟩` it started from.  `vis`, `now`, `wsum` are the
visited array, current index and current weight during that body. -/
structure RFacts [DecidableEq V] (W : WeightOps α) (D : Dijkstra V)
    (edgesOf : V → List (V × α)) (S : List Nat) (vis : List Bool)
    (now : Nat) (wsum : α) (ws : List α) (bt : List Nat)
    (heap : List (Nat × α)) (st : TState α) : Prop where
  f1 : st.weights.length = ws.length
  f2 : st.backtracker.length = bt.length
  f3 : ∀ v, vis.getD v false = true →
      st.weights.getD v W.infinity = ws.getD v W.infinity
  f3b : ∀ v, vis.getD v false = true → st.backtracker.getD v 0 = bt.getD v 0
  f4 : ∀ v, st.weights.getD v W.infinity = ws.getD v W.infinity ∨
      wlt W (st.weights.getD v W.infinity) (ws.getD v W.infinity)
  f5 : st.weights.getD now W.infinity = ws.getD now W.infinity
  f15 : ∃ pushed, st.heap = heap ++ pushed ∧
      ∀ e ∈ pushed, e.1 < D.graph.length ∧ vis.getD e.1 false = false
  f8 : ∀ v, st.weights.getD v W.infinity = W.infinity ∨
      Reach W D edgesOf S v (st.weights.getD v W.infinity)
  f9 : ∀ e ∈ st.heap, e.2 = W.infinity ∨ Reach W D edgesOf S e.1 e.2
  f10 : ∀ e ∈ st.heap, e.2 = st.weights.getD e.1 W.infinity ∨
      wlt W (st.weights.getD e.1 W.infinity) e.2
  f11 : ∀ v, vis.getD v false = false → v ≠ now →
      st.weights.getD v W.infinity ≠ W.infinity →
      (v, st.weights.getD v W.infinity) ∈ st.heap
  f12 : ∀ v ∈ S, st.weights.getD v W.infinity = W.zero
  f13 : ∀ v, st.weights.getD v W.infinity = W.infinity ∨ v ∈ S ∨
      ∃ u w', HasEdge D edgesOf u v w' ∧ st.backtracker.getD v 0 = u ∧
        st.weights.getD v W.infinity = W.add (st.weights.getD u W.infinity) w' ∧
        (vis.getD u false = true ∨ u = now) ∧
        st.weights.getD u W.infinity ≠ W.infinity
  f14 : ∀ v, st.backtracker.getD v 0 ≠ bt.getD v 0 →
      wlt W (st.weights.getD v W.infinity) (ws.getD v W.infinity)
  f16 : ∀ v, wle W W.zero (st.weights.getD v W.infinity)
  f17 : ∀ e ∈ st.heap, wle W W.zero e.2

/-- The loop-head invariant of `loopGo`: it holds every time the loop is
about to test `now ∈ endIdxs`, for the state produced by the pop that made
`(now, wsum)` current. -/
structure DInv [DecidableEq V] (W : WeightOps α) (D : Dijkstra V)
    (edgesOf : V → List (V × α)) (S E : List Nat) (ws : List α)
    (bt : List Nat) (vis : List Bool) (heap : List (Nat × α))
    (now : Nat) (wsum : α) : Prop where
  hlen_w : ws.length = D.graph.length
  hlen_b : bt.length = D.graph.length
  hlen_v : vis.length = D.graph.length
  hnow_lt : now < D.graph.length
  hheap_lt : ∀ e ∈ heap, e.1 < D.graph.length
  hA : vis.getD now false = false
  hNOWL : ws.getD now W.infinity = wsum
  hC : ∀ v, ws.getD v W.infinity = W.infinity ∨
      Reach W D edgesOf S v (ws.getD v W.infinity)
  hDs : ∀ e ∈ heap, e.2 = W.infinity ∨ Reach W D edgesOf S e.1 e.2
  hHW : ∀ e ∈ heap, e.2 = ws.getD e.1 W.infinity ∨
      wlt W (ws.getD e.1 W.infinity) e.2
  hEP : ∀ v, vis.getD v false = false → v ≠ now →
      ws.getD v W.infinity ≠ W.infinity → (v, ws.getD v W.infinity) ∈ heap
  hF : ∀ u, vis.getD u false = true → ∀ s, Reach W D edgesOf S u s →
      wle W (ws.getD u W.infinity) s
  hG : ∀ v s, vis.getD v false = false → Reach W D edgesOf S v s → wle W wsum s
  hH : ∀ v ∈ S, vis.getD v false = false → v ≠ now →
      ∃ x, (v, x) ∈ heap ∧ wle W x W.zero
  hI : ∀ u, vis.getD u false = true → ∀ vu, D.graph.get? u = some vu →
      ∀ p ∈ edgesOf vu, ∀ j, hmGet D.v_to_index_map p.1 = some j →
        (vis.getD j false = true ∨ j = now ∨
          ∃ x, (j, x) ∈ heap ∧ wle W x (W.add (ws.getD u W.infinity) p.2))
  hJ : ∀ e ∈ E, vis.getD e false = false
  hSW : ∀ v ∈ S, ws.getD v W.infinity = W.zero
  hBT : ∀ v, ws.getD v W.infinity = W.infinity ∨ v ∈ S ∨
      ∃ u w', HasEdge D edgesOf u v w' ∧ bt.getD v 0 = u ∧
        ws.getD v W.infinity = W.add (ws.getD u W.infinity) w' ∧
        vis.getD u false = true ∧ ws.getD u W.infinity ≠ W.infinity

/-- Weights `Option Nat`: `none` is `infinity`, finite values add and
compare as naturals (the shape of the test suite's `SimpleWeight`). -/
def optW : WeightOps (Option Nat) where
  add a b := match a, b with | some x, some y => some (x + y) | _, _ => none
  zero := some 0
  infinity := none
  isInfinity a := a.isNone
  cmp a b :=
    match a, b with
    | none, none => Ordering.eq
    | none, some _ => Ordering.gt
    | some _, none => Ordering.lt
    | some x, some y => compare x y

/-- An integer weight algebra (a large sentinel as `infinity`); it violates
non-negativity and is used to exhibit behaviour under negative weights. -/
def intW : WeightOps Int where
  add a b := a + b
  zero := 0
  infinity := 1000000
  isInfinity a := a = 1000000
  cmp a b := compare a b

/-- The test suite's graph on indices: S=0, B=1, C=2, D=3 with
S→B(24), S→C(3), S→D(20), C→D(12). -/
def testEdges : Nat → List (Nat × Option Nat) := fun v =>
  if v = 0 then [(1, some 24), (2, some 3), (3, some 20)]
  else if v = 2 then [(3, some 12)] else []

/-- The engine over the test graph's four vertices. -/
def testD : Dijkstra Nat := Dijkstra.new [0, 1, 2, 3]

/-- Graph for the C2 counterexample: s=0, m=1, e=2 with s→m of weight
`infinity` and m→e of weight 0. -/
def cex2Edges : Nat → List (Nat × Option Nat) := fun v =>
  if v = 0 then [(1, none)] else if v = 1 then [(2, some 0)] else []

/-- Engine of the C2 counterexample. -/
def cex2D : Dijkstra Nat := Dijkstra.new [0, 1, 2]

/-- Graph for the C4 counterexample: y=0, x=1, e=2 with one negative edge
y→e of weight −5. -/
def cex4Edges : Nat → List (Nat × Int) := fun v => if v = 0 then [(2, -5)] else []

/-- Engine of the C4 counterexample. -/
def cex4D : Dijkstra Nat := Dijkstra.new [0, 1, 2]

/-- Graph for the C10 lookup-panic exhibit: vertex 0 has an edge to the
unknown vertex 7. -/
def cex10Edges : Nat → List (Nat × Option Nat) := fun v =>
  if v = 0 then [(7, some 1)] else []

/-- Engine of the C10 exhibit: only vertices 0 and 1 are known. -/
def cex10D : Dijkstra Nat := Dijkstra.new [0, 1]

end Defs

section OrderLemmas

variable {α : Type} {W : WeightOps α}

theorem cmp_self_eq (hW : LawfulW W) (a : α) : W.cmp a a = Ordering.eq := by
  have h := hW.swap_cmp a a
  cases hcmp : W.cmp a a with
  | lt => rw [hcmp] at h; simp [Ordering.swap] at h
  | eq => rfl
  | gt => rw [hcmp] at h; simp [Ordering.swap] at h

theorem wle_refl (hW : LawfulW W) (a : α) : wle W a a := by
  simp [wle, cmp_self_eq hW]

theorem cmp_gt_iff (hW : LawfulW W) (a b : α) :
    W.cmp a b = Ordering.gt ↔ W.cmp b a = Ordering.lt := by
  constructor
  · intro h
    have := hW.swap_cmp a b
    rw [h] at this
    simpa [Ordering.swap] using this.symm
  · intro h
    have := hW.swap_cmp b a
    rw [h] at this
    simpa [Ordering.swap] using this.symm

theorem not_wle_iff (a b : α) : ¬ wle W a b ↔ W.cmp a b = Ordering.gt := by
  simp [wle]

theorem wle_of_wlt (h : wlt W a b) : wle W a b := by
  simp only [wlt] at h
  simp [wle, h]

theorem wlt_of_gt (hW : LawfulW W) (h : W.cmp a b = Ordering.gt) : wlt W b a :=
  (cmp_gt_iff hW a b).mp h

theorem gt_of_wlt (hW : LawfulW W) (h : wlt W b a) : W.cmp a b = Ordering.gt :=
  (cmp_gt_iff hW a b).mpr h

theorem not_wle_of_wlt (hW : LawfulW W) (h : wlt W a b) : ¬ wle W b a := by
  rw [not_wle_iff]
  exact gt_of_wlt hW h

theorem wle_total (hW : LawfulW W) (a b : α) : wle W a b ∨ wle W b a := by
  by_cases h : wle W a b
  · exact Or.inl h
  · right
    rw [not_wle_iff] at h
    exact wle_of_wlt ((cmp_gt_iff hW a b).mp h)

theorem wlt_of_wle_of_wlt (hW : LawfulW W) (hab : wle W a b) (hbc : wlt W b c) :
    wlt W a c := by
  by_contra h
  have hca : wle W c a := by
    cases hcmp : W.cmp a c with
    | lt => exact absurd hcmp h
    | eq =>
        have := hW.swap_cmp a c
        rw [hcmp] at this
        simp only [Ordering.swap] at this
        simp [wle, ← this]
    | gt => exact wle_of_wlt ((cmp_gt_iff hW a c).mp hcmp)
  have := hW.le_trans c a b hca hab
  exact (not_wle_of_wlt hW hbc) this

theorem wlt_of_wlt_of_wle (hW : LawfulW W) (hab : wlt W a b) (hbc : wle W b c) :
    wlt W a c := by
  by_contra h
  have hca : wle W c a := by
    cases hcmp : W.cmp a c with
    | lt => exact absurd hcmp h
    | eq =>
        have := hW.swap_cmp a c
        rw [hcmp] at this
        simp only [Ordering.swap] at this
        simp [wle, ← this]
    | gt => exact wle_of_wlt ((cmp_gt_iff hW a c).mp hcmp)
  have := hW.le_trans b c a hbc hca
  exact (not_wle_of_wlt hW hab) this

theorem wlt_trans (hW : LawfulW W) (hab : wlt W a b) (hbc : wlt W b c) :
    wlt W a c :=
  wlt_of_wlt_of_wle hW hab (wle_of_wlt hbc)

theorem wle_of_wle_of_not_gt (h : W.cmp a b ≠ Ordering.gt) : wle W a b := h

end OrderLemmas

section ListLemmas

variable {β : Type}

theorem getD_set_self : ∀ (l : List β) (i : Nat) (a d : β), i < l.length →
    (l.set i a).getD i d = a := by
  intro l
  induction l with
  | nil => intro i a d h; simp at h
  | cons x xs ih =>
      intro i a d h
      cases i with
      | zero => rfl
      | succ j =>
          simp only [List.set, List.getD, List.get?]
          have : j < xs.length := by simpa using h
          simpa [List.getD] using ih j a d this

theorem getD_set_ne : ∀ (l : List β) (i j : Nat) (a d : β), i ≠ j →
    (l.set i a).getD j d = l.getD j d := by
  intro l
  induction l with
  | nil => intro i j a d _; simp [List.set]
  | cons x xs ih =>
      intro i j a d h
      cases i with
      | zero =>
          cases j with
          | zero => exact absurd rfl h
          | succ k => rfl
      | succ i' =>
          cases j with
          | zero => rfl
          | succ k =>
              simp only [List.set, List.getD, List.get?]
              have : i' ≠ k := fun hh => h (by rw [hh])
              simpa [List.getD] using ih i' k a d this

theorem getD_replicate_self : ∀ (n i : Nat) (a : β),
    (List.replicate n a).getD i a = a := by
  intro n
  induction n with
  | zero => intro i a; simp [List.getD]
  | succ m ih =>
      intro i a
      cases i with
      | zero => rfl
      | succ j => exact ih j a

theorem getD_set_true (vis : List Bool) (now v : Nat)
    (h : vis.getD v false = true) : (vis.set now true).getD v false = true := by
  by_cases hv : now = v
  · subst hv
    by_cases hlt : now < vis.length
    · exact getD_set_self vis now true false hlt
    · rw [List.set_eq_of_length_le (Nat.le_of_not_lt hlt)]
      exact h
  · rw [getD_set_ne vis now v true false hv]
    exact h

theorem getD_set_true_self (vis : List Bool) (now : Nat) (h : now < vis.length) :
    (vis.set now true).getD now false = true :=
  getD_set_self vis now true false h

theorem getD_set_true_of_ne (vis : List Bool) (now v : Nat) (h : v ≠ now) :
    (vis.set now true).getD v false = vis.getD v false :=
  getD_set_ne vis now v true false (fun hh => h hh.symm)

theorem length_pos_of_getD_false {vis : List Bool} {v : Nat}
    (h : vis.getD v false = true) : v < vis.length := by
  by_contra hle
  have hnone : vis[v]? = none := List.getElem?_eq_none (Nat.le_of_not_lt hle)
  simp [List.getD, hnone] at h

theorem nodup_lt_length_le : ∀ (l : List Nat) (n : Nat), l.Nodup →
    (∀ x ∈ l, x < n) → l.length ≤ n := by
  intro l n hnd hlt
  have hsub : l.toFinset ⊆ Finset.range n := by
    intro x hx
    simp only [List.mem_toFinset] at hx
    exact Finset.mem_range.mpr (hlt x hx)
  have hcard := Finset.card_le_card hsub
  rwa [List.toFinset_card_of_nodup hnd, Finset.card_range] at hcard

theorem countFalse_set_true : ∀ (vis : List Bool) (now : Nat),
    now < vis.length → vis.getD now false = false →
    countFalse (vis.set now true) < countFalse vis := by
  intro vis
  induction vis with
  | nil => intro now h; simp at h
  | cons b rest ih =>
      intro now hlt hfalse
      cases now with
      | zero =>
          simp only [List.getD, List.get?, Option.getD] at hfalse
          subst hfalse
          simp [List.set, countFalse]
      | succ m =>
          have h1 : m < rest.length := by simpa using hlt
          have h2 : rest.getD m false = false := hfalse
          have := ih m h1 h2
          simp only [List.set, countFalse]
          omega

theorem countFalse_replicate : ∀ n, countFalse (List.replicate n false) = n := by
  intro n
  induction n with
  | zero => rfl
  | succ m ih => simp [List.replicate, countFalse, ih]; omega

end ListLemmas

section MapLemmas

variable {V : Type} [DecidableEq V]

theorem hmGet_hmInsert : ∀ (m : List (V × Nat)) (k : V) (i : Nat) (k' : V),
    hmGet (hmInsert m k i) k' = if k = k' then some i else hmGet m k' := by
  intro m
  induction m with
  | nil => intro k i k'; simp [hmInsert, hmGet]
  | cons e rest ih =>
      intro k i k'
      obtain ⟨k'', i''⟩ := e
      by_cases h1 : k'' = k
      · subst h1
        simp only [hmInsert, if_pos rfl, hmGet]
        by_cases h2 : k'' = k'
        · simp [h2]
        · simp [h2, hmGet]
      · simp only [hmInsert, if_neg h1, hmGet]
        by_cases h2 : k'' = k'
        · subst h2
          have : ¬ k = k'' := fun h => h1 h.symm
          simp [this]
        · simp [h2, ih k i k']

theorem hmGet_buildMapGo : ∀ (l : List V) (i : Nat) (m : List (V × Nat)) (v : V),
    hmGet (buildMapGo i m l) v =
      (match lastIdx l v with
       | some k => some (i + k)
       | none => hmGet m v) := by
  intro l
  induction l with
  | nil => intro i m v; simp [buildMapGo, lastIdx]
  | cons x xs ih =>
      intro i m v
      simp only [buildMapGo, lastIdx]
      rw [ih (i + 1) (hmInsert m x i) v]
      cases hx : lastIdx xs v with
      | some k =>
          simp only []
          congr 1
          omega
      | none =>
          simp only []
          rw [hmGet_hmInsert]
          by_cases hxv : x = v
          · simp [hxv]
          · simp [hxv]

theorem new_map_eq_lastIdx (l : List V) (v : V) :
    hmGet (Dijkstra.new l).v_to_index_map v = lastIdx l v := by
  show hmGet (buildMapGo 0 [] l) v = lastIdx l v
  rw [hmGet_buildMapGo]
  cases h : lastIdx l v with
  | some k => simp
  | none => simp [hmGet]

theorem lastIdx_get? : ∀ (l : List V) (v : V) (k : Nat),
    lastIdx l v = some k → l.get? k = some v := by
  intro l
  induction l with
  | nil => intro v k h; simp [lastIdx] at h
  | cons x xs ih =>
      intro v k h
      simp only [lastIdx] at h
      cases hx : lastIdx xs v with
      | some j =>
          rw [hx] at h
          simp only [Option.some.injEq] at h
          subst h
          simpa using ih v j hx
      | none =>
          rw [hx] at h
          by_cases hxv : x = v
          · simp only [if_pos hxv] at h
            simp only [Option.some.injEq] at h
            subst h
            simp [hxv]
          · simp [if_neg hxv] at h

theorem lastIdx_last : ∀ (l : List V) (v : V) (k : Nat),
    lastIdx l v = some k → ∀ j, k < j → l.get? j ≠ some v := by
  intro l
  induction l with
  | nil => intro v k h; simp [lastIdx] at h
  | cons x xs ih =>
      intro v k h j hj
      simp only [lastIdx] at h
      cases hx : lastIdx xs v with
      | some m =>
          rw [hx] at h
          simp only [Option.some.injEq] at h
          subst h
          cases j with
          | zero => omega
          | succ j' =>
              have : m < j' := by omega
              simpa using ih v m hx j' this
      | none =>
          rw [hx] at h
          by_cases hxv : x = v
          · simp only [if_pos hxv] at h
            simp only [Option.some.injEq] at h
            subst h
            cases j with
            | zero => omega
            | succ j' =>
                intro hc
                simp only [List.get?] at hc
                have hmem : v ∈ xs := List.get?_mem hc
                revert hx
                clear ih hc
                induction xs with
                | nil => simp at hmem
                | cons y ys ih2 =>
                    intro hx
                    simp only [lastIdx] at hx
                    cases hy : lastIdx ys v with
                    | some _ => rw [hy] at hx; simp at hx
                    | none =>
                        rw [hy] at hx
                        rcases List.mem_cons.mp hmem with h1 | h1
                        · simp [h1.symm] at hx
                        · exact ih2 h1 hy
          · simp [if_neg hxv] at h

theorem lastIdx_lt : ∀ (l : List V) (v : V) (k : Nat),
    lastIdx l v = some k → k < l.length := by
  intro l v k h
  have h2 := lastIdx_get? l v k h
  by_contra hge
  rw [List.get?_eq_none.mpr (Nat.le_of_not_lt hge)] at h2
  exact Option.noConfusion h2

theorem lastIdx_mem : ∀ (l : List V) (v : V), v ∈ l → ∃ k, lastIdx l v = some k := by
  intro l
  induction l with
  | nil => intro v h; simp at h
  | cons x xs ih =>
      intro v h
      simp only [lastIdx]
      cases hx : lastIdx xs v with
      | some k => exact ⟨k + 1, rfl⟩
      | none =>
          rcases List.mem_cons.mp h with h1 | h1
          · exact ⟨0, by simp [h1.symm]⟩
          · obtain ⟨k, hk⟩ := ih v h1
            rw [hk] at hx
            exact absurd hx (by simp)

end MapLemmas

section NewLemmas

variable {V : Type} [DecidableEq V]

theorem new_map_lt {l : List V} {v : V} {i : Nat}
    (h : hmGet (Dijkstra.new l).v_to_index_map v = some i) :
    i < (Dijkstra.new l).graph.length := by
  rw [new_map_eq_lastIdx] at h
  exact lastIdx_lt l v i h

theorem new_map_get? {l : List V} {v : V} {i : Nat}
    (h : hmGet (Dijkstra.new l).v_to_index_map v = some i) :
    (Dijkstra.new l).graph.get? i = some v := by
  rw [new_map_eq_lastIdx] at h
  exact lastIdx_get? l v i h

theorem mem_dedupFirst : ∀ (l seen : List Nat) (x : Nat),
    x ∈ dedupFirst seen l ↔ x ∈ l ∧ x ∉ seen := by
  intro l
  induction l with
  | nil => intro seen x; simp [dedupFirst]
  | cons y ys ih =>
      intro seen x
      simp only [dedupFirst]
      by_cases hy : y ∈ seen
      · rw [if_pos hy, ih seen x]
        constructor
        · rintro ⟨h1, h2⟩
          exact ⟨List.mem_cons_of_mem y h1, h2⟩
        · rintro ⟨h1, h2⟩
          rcases List.mem_cons.mp h1 with h3 | h3
          · subst h3; exact absurd hy h2
          · exact ⟨h3, h2⟩
      · rw [if_neg hy]
        constructor
        · intro h
          rcases List.mem_cons.mp h with h3 | h3
          · exact ⟨List.mem_cons.mpr (Or.inl h3), by rw [h3]; exact hy⟩
          · have := (ih (y :: seen) x).mp h3
            refine ⟨List.mem_cons_of_mem y this.1, ?_⟩
            intro hc
            exact this.2 (List.mem_cons_of_mem y hc)
        · rintro ⟨h1, h2⟩
          rcases List.mem_cons.mp h1 with h3 | h3
          · subst h3; exact List.mem_cons_self x _
          · by_cases hxy : x = y
            · subst hxy; exact List.mem_cons_self x _
            · refine List.mem_cons_of_mem y ((ih (y :: seen) x).mpr ⟨h3, ?_⟩)
              intro hc
              rcases List.mem_cons.mp hc with h4 | h4
              · exact hxy h4
              · exact h2 h4

theorem nodup_dedupFirst : ∀ (l seen : List Nat), (dedupFirst seen l).Nodup := by
  intro l
  induction l with
  | nil => intro seen; simp [dedupFirst]
  | cons y ys ih =>
      intro seen
      simp only [dedupFirst]
      by_cases hy : y ∈ seen
      · rw [if_pos hy]; exact ih seen
      · rw [if_neg hy]
        refine List.nodup_cons.mpr ⟨?_, ih (y :: seen)⟩
        intro hc
        exact ((mem_dedupFirst ys (y :: seen) y).mp hc).2 (List.mem_cons_self y seen)

theorem mem_filtered_iff (D : Dijkstra V) (l : List V) (i : Nat) :
    i ∈ dedupFirst [] (l.filterMap (hmGet D.v_to_index_map)) ↔
      ∃ v ∈ l, hmGet D.v_to_index_map v = some i := by
  rw [mem_dedupFirst]
  simp [List.mem_filterMap]

end NewLemmas

section HeapLemmas

variable {α : Type} {W : WeightOps α}

theorem heapPop_none_iff (heap : List (Nat × α)) :
    heapPop W heap = none ↔ heap = [] := by
  cases heap with
  | nil => simp [heapPop]
  | cons e rest =>
      simp only [heapPop]
      cases h : heapPop W rest with
      | none => simp
      | some pr =>
          obtain ⟨m, rest'⟩ := pr
          by_cases hc : W.cmp e.2 m.2 = Ordering.gt <;> simp [hc]

theorem heapPop_mem : ∀ (heap : List (Nat × α)) p rest,
    heapPop W heap = some (p, rest) → p ∈ heap := by
  intro heap
  induction heap with
  | nil => intro p rest h; simp [heapPop] at h
  | cons e tail ih =>
      intro p rest h
      simp only [heapPop] at h
      split at h
      · simp only [Option.some.injEq, Prod.mk.injEq] at h
        exact h.1 ▸ List.mem_cons_self e tail
      · rename_i m rest' htail
        split at h
        · simp only [Option.some.injEq, Prod.mk.injEq] at h
          exact List.mem_cons_of_mem e (h.1 ▸ ih m rest' htail)
        · simp only [Option.some.injEq, Prod.mk.injEq] at h
          exact h.1 ▸ List.mem_cons_self e tail

theorem heapPop_le (hW : LawfulW W) : ∀ (heap : List (Nat × α)) p rest,
    heapPop W heap = some (p, rest) → ∀ e ∈ heap, wle W p.2 e.2 := by
  intro heap
  induction heap with
  | nil => intro p rest h; simp [heapPop] at h
  | cons e tail ih =>
      intro p rest h x hx
      simp only [heapPop] at h
      split at h
      · rename_i htail
        simp only [Option.some.injEq, Prod.mk.injEq] at h
        have htail_nil : tail = [] := (heapPop_none_iff tail).mp htail
        subst htail_nil
        rcases List.mem_cons.mp hx with h1 | h1
        · rw [← h.1, h1]
          exact wle_refl hW e.2
        · simp at h1
      · rename_i m rest' htail
        split at h
        · rename_i hc
          simp only [Option.some.injEq, Prod.mk.injEq] at h
          obtain ⟨hp, hr⟩ := h
          rcases List.mem_cons.mp hx with h1 | h1
          · rw [← hp, h1]
            exact wle_of_wlt ((cmp_gt_iff hW _ _).mp hc)
          · exact hp ▸ ih m rest' htail x h1
        · rename_i hc
          simp only [Option.some.injEq, Prod.mk.injEq] at h
          obtain ⟨hp, hr⟩ := h
          rcases List.mem_cons.mp hx with h1 | h1
          · rw [← hp, h1]
            exact wle_refl hW e.2
          · rw [← hp]
            exact hW.le_trans e.2 m.2 x.2 hc (ih m rest' htail x h1)

theorem heapPop_elem : ∀ (heap : List (Nat × α)) p rest,
    heapPop W heap = some (p, rest) → ∀ e ∈ heap, e = p ∨ e ∈ rest := by
  intro heap
  induction heap with
  | nil => intro p rest h; simp [heapPop] at h
  | cons e tail ih =>
      intro p rest h x hx
      simp only [heapPop] at h
      split at h
      · rename_i htail
        simp only [Option.some.injEq, Prod.mk.injEq] at h
        have htail_nil : tail = [] := (heapPop_none_iff tail).mp htail
        subst htail_nil
        rcases List.mem_cons.mp hx with h1 | h1
        · exact Or.inl (h.1 ▸ h1)
        · simp at h1
      · rename_i m rest' htail
        split at h
        · simp only [Option.some.injEq, Prod.mk.injEq] at h
          obtain ⟨hp, hr⟩ := h
          rcases List.mem_cons.mp hx with h1 | h1
          · refine Or.inr ?_
            rw [← hr, h1]
            exact List.mem_cons_self e rest'
          · rcases ih m rest' htail x h1 with h2 | h2
            · exact Or.inl (h2.trans hp)
            · refine Or.inr ?_
              rw [← hr]
              exact List.mem_cons_of_mem e h2
        · simp only [Option.some.injEq, Prod.mk.injEq] at h
          obtain ⟨hp, hr⟩ := h
          rcases List.mem_cons.mp hx with h1 | h1
          · exact Or.inl (h1.trans hp)
          · exact Or.inr (hr ▸ h1)

theorem heapPop_subset : ∀ (heap : List (Nat × α)) p rest,
    heapPop W heap = some (p, rest) → ∀ e ∈ rest, e ∈ heap := by
  intro heap
  induction heap with
  | nil => intro p rest h; simp [heapPop] at h
  | cons e tail ih =>
      intro p rest h x hx
      simp only [heapPop] at h
      split at h
      · simp only [Option.some.injEq, Prod.mk.injEq] at h
        rw [← h.2] at hx
        simp at hx
      · rename_i m rest' htail
        split at h
        · simp only [Option.some.injEq, Prod.mk.injEq] at h
          rw [← h.2] at hx
          rcases List.mem_cons.mp hx with h1 | h1
          · exact h1 ▸ List.mem_cons_self e tail
          · exact List.mem_cons_of_mem e (ih m rest' htail x h1)
        · simp only [Option.some.injEq, Prod.mk.injEq] at h
          rw [← h.2] at hx
          exact List.mem_cons_of_mem e hx

theorem heapPop_length : ∀ (heap : List (Nat × α)) p rest,
    heapPop W heap = some (p, rest) → rest.length + 1 = heap.length := by
  intro heap
  induction heap with
  | nil => intro p rest h; simp [heapPop] at h
  | cons e tail ih =>
      intro p rest h
      simp only [heapPop] at h
      split at h
      · rename_i htail
        simp only [Option.some.injEq, Prod.mk.injEq] at h
        have htail_nil : tail = [] := (heapPop_none_iff tail).mp htail
        subst htail_nil
        rw [← h.2]
        rfl
      · rename_i m rest' htail
        split at h
        · simp only [Option.some.injEq, Prod.mk.injEq] at h
          rw [← h.2]
          have := ih m rest' htail
          simp only [List.length_cons]
          omega
        · simp only [Option.some.injEq, Prod.mk.injEq] at h
          rw [← h.2]
          rfl

end HeapLemmas

section PopLemmas

variable {α : Type} {W : WeightOps α}

theorem pu_unvisited : ∀ (fuel : Nat) (vis : List Bool) (heap : List (Nat × α)) p rest,
    popUnvisited W vis fuel heap = some (p, rest) → vis.getD p.1 false = false := by
  intro fuel
  induction fuel with
  | zero => intro vis heap p rest h; simp [popUnvisited] at h
  | succ f ih =>
      intro vis heap p rest h
      simp only [popUnvisited] at h
      split at h
      · exact Option.noConfusion h
      · rename_i q rest0 hq
        split at h
        · exact ih vis rest0 p rest h
        · rename_i hvq
          simp only [Option.some.injEq, Prod.mk.injEq] at h
          rw [← h.1]
          simpa using hvq

theorem pu_mem : ∀ (fuel : Nat) (vis : List Bool) (heap : List (Nat × α)) p rest,
    popUnvisited W vis fuel heap = some (p, rest) → p ∈ heap := by
  intro fuel
  induction fuel with
  | zero => intro vis heap p rest h; simp [popUnvisited] at h
  | succ f ih =>
      intro vis heap p rest h
      simp only [popUnvisited] at h
      split at h
      · exact Option.noConfusion h
      · rename_i q rest0 hq
        split at h
        · exact heapPop_subset heap q rest0 hq p (ih vis rest0 p rest h)
        · simp only [Option.some.injEq, Prod.mk.injEq] at h
          exact h.1 ▸ heapPop_mem heap q rest0 hq

theorem pu_le_unvisited (hW : LawfulW W) : ∀ (fuel : Nat) (vis : List Bool)
    (heap : List (Nat × α)) p rest,
    popUnvisited W vis fuel heap = some (p, rest) →
    ∀ e ∈ heap, vis.getD e.1 false = false → wle W p.2 e.2 := by
  intro fuel
  induction fuel with
  | zero => intro vis heap p rest h; simp [popUnvisited] at h
  | succ f ih =>
      intro vis heap p rest h e he hve
      simp only [popUnvisited] at h
      split at h
      · exact Option.noConfusion h
      · rename_i q rest0 hq
        split at h
        · rename_i hvq
          rcases heapPop_elem heap q rest0 hq e he with h1 | h1
          · rw [h1] at hve
            rw [hve] at hvq
            exact Bool.noConfusion hvq
          · exact ih vis rest0 p rest h e h1 hve
        · simp only [Option.some.injEq, Prod.mk.injEq] at h
          exact h.1 ▸ heapPop_le hW heap q rest0 hq e he

theorem pu_le_rest (hW : LawfulW W) : ∀ (fuel : Nat) (vis : List Bool)
    (heap : List (Nat × α)) p rest,
    popUnvisited W vis fuel heap = some (p, rest) →
    ∀ e ∈ rest, wle W p.2 e.2 := by
  intro fuel
  induction fuel with
  | zero => intro vis heap p rest h; simp [popUnvisited] at h
  | succ f ih =>
      intro vis heap p rest h e he
      simp only [popUnvisited] at h
      split at h
      · exact Option.noConfusion h
      · rename_i q rest0 hq
        split at h
        · exact ih vis rest0 p rest h e he
        · simp only [Option.some.injEq, Prod.mk.injEq] at h
          refine h.1 ▸ heapPop_le hW heap q rest0 hq e ?_
          exact heapPop_subset heap q rest0 hq e (h.2 ▸ he)

theorem pu_elem : ∀ (fuel : Nat) (vis : List Bool) (heap : List (Nat × α)) p rest,
    popUnvisited W vis fuel heap = some (p, rest) →
    ∀ e ∈ heap, vis.getD e.1 false = false → e = p ∨ e ∈ rest := by
  intro fuel
  induction fuel with
  | zero => intro vis heap p rest h; simp [popUnvisited] at h
  | succ f ih =>
      intro vis heap p rest h e he hve
      simp only [popUnvisited] at h
      split at h
      · exact Option.noConfusion h
      · rename_i q rest0 hq
        split at h
        · rename_i hvq
          rcases heapPop_elem heap q rest0 hq e he with h1 | h1
          · rw [h1] at hve
            rw [hve] at hvq
            exact Bool.noConfusion hvq
          · exact ih vis rest0 p rest h e h1 hve
        · simp only [Option.some.injEq, Prod.mk.injEq] at h
          rcases heapPop_elem heap q rest0 hq e he with h1 | h1
          · exact Or.inl (h1.trans h.1)
          · exact Or.inr (h.2 ▸ h1)

theorem pu_subset : ∀ (fuel : Nat) (vis : List Bool) (heap : List (Nat × α)) p rest,
    popUnvisited W vis fuel heap = some (p, rest) → ∀ e ∈ rest, e ∈ heap := by
  intro fuel
  induction fuel with
  | zero => intro vis heap p rest h; simp [popUnvisited] at h
  | succ f ih =>
      intro vis heap p rest h e he
      simp only [popUnvisited] at h
      split at h
      · exact Option.noConfusion h
      · rename_i q rest0 hq
        split at h
        · exact heapPop_subset heap q rest0 hq e (ih vis rest0 p rest h e he)
        · simp only [Option.some.injEq, Prod.mk.injEq] at h
          exact heapPop_subset heap q rest0 hq e (h.2 ▸ he)

end PopLemmas

section RelaxLemmas

variable {V : Type} [DecidableEq V] {α : Type} {W : WeightOps α}
variable {map : List (V × Nat)} {vis : List Bool} {now : Nat} {wsum : α}

theorem relaxOne_none {st : TState α} {p : V × α}
    (h : relaxOne W map vis now wsum st p = none) : hmGet map p.1 = none := by
  simp only [relaxOne] at h
  split at h
  · assumption
  · split at h
    · exact Option.noConfusion h
    · exact Option.noConfusion h

theorem relaxOne_cases {st st' : TState α} {p : V × α}
    (h : relaxOne W map vis now wsum st p = some st') :
    ∃ toI, hmGet map p.1 = some toI ∧
      ((vis.getD toI false = true ∧ st' = st) ∨
       (vis.getD toI false = false ∧
         ((W.cmp (st.weights.getD toI W.infinity) (W.add wsum p.2) = Ordering.gt ∧
            st' = ⟨st.weights.set toI (W.add wsum p.2),
                   st.backtracker.set toI now,
                   st.heap ++ [(toI, (st.weights.set toI (W.add wsum p.2)).getD toI
                     W.infinity)]⟩) ∨
          (W.cmp (st.weights.getD toI W.infinity) (W.add wsum p.2) ≠ Ordering.gt ∧
            st' = ⟨st.weights, st.backtracker,
                   st.heap ++ [(toI, st.weights.getD toI W.infinity)]⟩)))) := by
  simp only [relaxOne] at h
  split at h
  · exact Option.noConfusion h
  · rename_i toI hget
    refine ⟨toI, hget, ?_⟩
    split at h
    · rename_i hvis
      simp only [Option.some.injEq] at h
      exact Or.inl ⟨hvis, h.symm⟩
    · rename_i hvis
      refine Or.inr ⟨by simpa using hvis, ?_⟩
      by_cases hc : W.cmp (st.weights.getD toI W.infinity) (W.add wsum p.2) = Ordering.gt
      · simp only [if_pos hc, Option.some.injEq] at h
        exact Or.inl ⟨hc, h.symm⟩
      · simp only [if_neg hc, Option.some.injEq] at h
        exact Or.inr ⟨hc, h.symm⟩

theorem relaxEdges_pres (P : TState α → Prop) :
    ∀ (es : List (V × α)) (st st' : TState α),
    (∀ p st1 st2, p ∈ es → relaxOne W map vis now wsum st1 p = some st2 →
      P st1 → P st2) →
    relaxEdges W map vis now wsum es st = some st' → P st → P st' := by
  intro es
  induction es with
  | nil =>
      intro st st' _ h hP
      simp only [relaxEdges, Option.some.injEq] at h
      exact h ▸ hP
  | cons p rest ih =>
      intro st st' hstep h hP
      simp only [relaxEdges] at h
      split at h
      · exact Option.noConfusion h
      · rename_i st1 hone
        exact ih st1 st'
          (fun q s1 s2 hq => hstep q s1 s2 (List.mem_cons_of_mem p hq)) h
          (hstep p st st1 (List.mem_cons_self p rest) hone hP)

theorem relax_none : ∀ (es : List (V × α)) (st : TState α),
    relaxEdges W map vis now wsum es st = none →
    ∃ p ∈ es, hmGet map p.1 = none := by
  intro es
  induction es with
  | nil => intro st h; simp [relaxEdges] at h
  | cons p rest ih =>
      intro st h
      simp only [relaxEdges] at h
      split at h
      · rename_i hone
        exact ⟨p, List.mem_cons_self p rest, relaxOne_none hone⟩
      · rename_i st1 hone
        obtain ⟨q, hq, hqn⟩ := ih st1 h
        exact ⟨q, List.mem_cons_of_mem p hq, hqn⟩

theorem relax_heap_shape {es : List (V × α)} {st st' : TState α}
    (h : relaxEdges W map vis now wsum es st = some st') :
    ∃ pushed, st'.heap = st.heap ++ pushed ∧
      ∀ e ∈ pushed, ∃ p, p ∈ es ∧ ∃ toI, hmGet map p.1 = some toI ∧
        e.1 = toI ∧ vis.getD toI false = false := by
  refine relaxEdges_pres
    (fun s => ∃ pushed, s.heap = st.heap ++ pushed ∧
      ∀ e ∈ pushed, ∃ p, p ∈ es ∧ ∃ toI, hmGet map p.1 = some toI ∧
        e.1 = toI ∧ vis.getD toI false = false)
    es st st' ?_ h ⟨[], by simp⟩
  intro p st1 st2 hp hone ⟨pushed, hheap, hfacts⟩
  obtain ⟨toI, hget, hcases⟩ := relaxOne_cases hone
  rcases hcases with ⟨hvis, hst⟩ | ⟨hvis, hcases2⟩
  · exact ⟨pushed, hst ▸ hheap, hfacts⟩
  · have hnew : ∀ x, st2.heap = st1.heap ++ [(toI, x)] →
        ∃ pushed2, st2.heap = st.heap ++ pushed2 ∧
          ∀ e ∈ pushed2, ∃ p, p ∈ es ∧ ∃ toI2, hmGet map p.1 = some toI2 ∧
            e.1 = toI2 ∧ vis.getD toI2 false = false := by
      intro x hx
      refine ⟨pushed ++ [(toI, x)], ?_, ?_⟩
      · rw [hx, hheap, List.append_assoc]
      · intro e he
        rcases List.mem_append.mp he with h1 | h1
        · exact hfacts e h1
        · simp only [List.mem_singleton] at h1
          exact ⟨p, hp, toI, hget, by rw [h1], hvis⟩
    rcases hcases2 with ⟨hc, hst⟩ | ⟨hc, hst⟩
    · exact hnew _ (by rw [hst])
    · exact hnew _ (by rw [hst])

theorem relaxOne_lengths {st st' : TState α} {p : V × α}
    (h : relaxOne W map vis now wsum st p = some st') :
    st'.weights.length = st.weights.length ∧
    st'.backtracker.length = st.backtracker.length := by
  obtain ⟨toI, hget, hcases⟩ := relaxOne_cases h
  rcases hcases with ⟨_, hst⟩ | ⟨_, ⟨_, hst⟩ | ⟨_, hst⟩⟩ <;>
    simp [hst, List.length_set]

theorem relax_lengths {es : List (V × α)} {st st' : TState α}
    (h : relaxEdges W map vis now wsum es st = some st') :
    st'.weights.length = st.weights.length ∧
    st'.backtracker.length = st.backtracker.length := by
  refine relaxEdges_pres
    (fun s => s.weights.length = st.weights.length ∧
      s.backtracker.length = st.backtracker.length)
    es st st' ?_ h ⟨rfl, rfl⟩
  intro p st1 st2 _ hone ⟨h1, h2⟩
  obtain ⟨h3, h4⟩ := relaxOne_lengths hone
  exact ⟨h3.trans h1, h4.trans h2⟩

theorem relax_edge_cover (hW : LawfulW W) {n : Nat}
    (hmapb : ∀ v i, hmGet map v = some i → i < n) :
    ∀ (es : List (V × α)) (st st' : TState α),
    relaxEdges W map vis now wsum es st = some st' →
    st.weights.length = n →
    ∀ p ∈ es, ∀ toI, hmGet map p.1 = some toI → vis.getD toI false = false →
    ∃ x, (toI, x) ∈ st'.heap ∧ wle W x (W.add wsum p.2) := by
  intro es
  induction es with
  | nil => intro st st' _ _ p hp; simp at hp
  | cons q rest ih =>
      intro st st' h hlen p hp toI hget hvis
      simp only [relaxEdges] at h
      split at h
      · exact Option.noConfusion h
      · rename_i st1 hone
        have hlen1 : st1.weights.length = n :=
          (relaxOne_lengths hone).1.trans hlen
        rcases List.mem_cons.mp hp with hpq | hpr
        · subst hpq
          obtain ⟨toI2, hget2, hcases⟩ := relaxOne_cases hone
          rw [hget] at hget2
          have htoI : toI2 = toI := by
            simpa using hget2.symm
          subst htoI
          rcases hcases with ⟨hvis2, _⟩ | ⟨_, hcases2⟩
          · rw [hvis] at hvis2
            exact Bool.noConfusion hvis2
          · obtain ⟨pushed, hshape, _⟩ := relax_heap_shape h
            rcases hcases2 with ⟨hc, hst⟩ | ⟨hc, hst⟩
            · refine ⟨W.add wsum p.2, ?_, wle_refl hW _⟩
              rw [hshape, hst]
              simp only [TState.heap]
              have : toI2 < st.weights.length := hlen ▸ hmapb p.1 toI2 hget
              rw [getD_set_self st.weights toI2 (W.add wsum p.2) W.infinity this]
              simp
            · refine ⟨st.weights.getD toI2 W.infinity, ?_, hc⟩
              rw [hshape, hst]
              simp
        · exact ih st1 st' h hlen1 p hpr toI hget hvis

end RelaxLemmas

section RelaxMain

variable {V : Type} [DecidableEq V] {α : Type} {W : WeightOps α}

theorem relax_main (hW : LawfulW W) {D : Dijkstra V}
    {edgesOf : V → List (V × α)} {S : List Nat} {vis : List Bool}
    {now : Nat} {wsum : α}
    (hmapb : ∀ v i, hmGet D.v_to_index_map v = some i → i < D.graph.length)
    {vnow : V} (hvnow : D.graph.get? now = some vnow)
    {es : List (V × α)} (hes : ∀ p ∈ es, p ∈ edgesOf vnow)
    {ws : List α} {bt : List Nat} {heap : List (Nat × α)} {st' : TState α}
    (hwlen : ws.length = D.graph.length)
    (hblen : bt.length = D.graph.length)
    (hnwl : ws.getD now W.infinity = wsum)
    (hzw : wle W W.zero wsum)
    (hRN : wsum = W.infinity ∨ Reach W D edgesOf S now wsum)
    (hC : ∀ v, ws.getD v W.infinity = W.infinity ∨
      Reach W D edgesOf S v (ws.getD v W.infinity))
    (hDs : ∀ e ∈ heap, e.2 = W.infinity ∨ Reach W D edgesOf S e.1 e.2)
    (hHW : ∀ e ∈ heap, e.2 = ws.getD e.1 W.infinity ∨
      wlt W (ws.getD e.1 W.infinity) e.2)
    (hEP : ∀ v, vis.getD v false = false → v ≠ now →
      ws.getD v W.infinity ≠ W.infinity → (v, ws.getD v W.infinity) ∈ heap)
    (hSW : ∀ v ∈ S, ws.getD v W.infinity = W.zero)
    (hBT : ∀ v, ws.getD v W.infinity = W.infinity ∨ v ∈ S ∨
      ∃ u w', HasEdge D edgesOf u v w' ∧ bt.getD v 0 = u ∧
        ws.getD v W.infinity = W.add (ws.getD u W.infinity) w' ∧
        vis.getD u false = true ∧ ws.getD u W.infinity ≠ W.infinity)
    (hzws : ∀ v, wle W W.zero (ws.getD v W.infinity))
    (hzh : ∀ e ∈ heap, wle W W.zero e.2)
    (h : relaxEdges W D.v_to_index_map vis now wsum es ⟨ws, bt, heap⟩ = some st') :
    RFacts W D edgesOf S vis now wsum ws bt heap st' := by
  refine relaxEdges_pres (RFacts W D edgesOf S vis now wsum ws bt heap)
    es ⟨ws, bt, heap⟩ st' ?_ h
    { f1 := rfl, f2 := rfl, f3 := fun v _ => rfl, f3b := fun v _ => rfl
      f4 := fun v => Or.inl rfl, f5 := rfl
      f15 := ⟨[], by simp, by simp⟩
      f8 := hC, f9 := hDs, f10 := hHW, f11 := hEP, f12 := hSW
      f13 := ?_
      f14 := fun v hne => absurd rfl hne
      f16 := hzws, f17 := hzh }
  · -- the one-edge step preserves every fact
    intro p st1 st2 hp hone hR
    obtain ⟨toI, hget, hcases⟩ := relaxOne_cases hone
    rcases hcases with ⟨hvisT, hst⟩ | ⟨hvisT, hcases2⟩
    · exact hst ▸ hR
    have htoIlt : toI < D.graph.length := hmapb p.1 toI hget
    have htoIw : toI < st1.weights.length := by rw [hR.f1, hwlen]; exact htoIlt
    have htoIb : toI < st1.backtracker.length := by rw [hR.f2, hblen]; exact htoIlt
    have hedge : HasEdge D edgesOf now toI p.2 := ⟨vnow, hvnow, p.1, hes p hp, hget⟩
    rcases hcases2 with ⟨hc, hst⟩ | ⟨hc, hst⟩
    · -- strict improvement: weights and backpointer updated, entry pushed
      subst hst
      have hcur : st1.weights.getD toI W.infinity = ws.getD toI W.infinity ∨
          wlt W (st1.weights.getD toI W.infinity) (ws.getD toI W.infinity) := hR.f4 toI
      have hlt_added : wlt W (W.add wsum p.2) (st1.weights.getD toI W.infinity) :=
        (cmp_gt_iff hW _ _).mp hc
      have hZadded : wle W W.zero (W.add wsum p.2) :=
        hW.le_trans _ _ _ hzw (hW.le_add_left wsum p.2)
      have htoInow : toI ≠ now := by
        intro hEq
        subst hEq
        rw [hR.f5, hnwl] at hc
        exact hW.le_add_left wsum p.2 hc
      have hwsum_ne : wsum ≠ W.infinity := by
        intro hEq
        have h1 : wle W (st1.weights.getD toI W.infinity) W.infinity :=
          hW.le_infinity _
        have h2 : wle W W.infinity (W.add wsum p.2) := by
          rw [← hEq]
          exact hW.le_add_left wsum p.2
        exact hW.le_trans _ _ _ h1 h2 hc
      have hReachAdded : Reach W D edgesOf S toI (W.add wsum p.2) := by
        rcases hRN with h1 | h1
        · exact absurd h1 hwsum_ne
        · exact Reach.step now toI p.2 wsum h1 hedge
      have hset_toI : ((st1.weights.set toI (W.add wsum p.2)).getD toI W.infinity)
          = W.add wsum p.2 := getD_set_self _ _ _ _ htoIw
      have hset_ne : ∀ v, v ≠ toI →
          ((st1.weights.set toI (W.add wsum p.2)).getD v W.infinity)
            = st1.weights.getD v W.infinity := by
        intro v hv
        exact getD_set_ne _ _ _ _ _ (fun hh => hv hh.symm)
      have hbset_toI : ((st1.backtracker.set toI now).getD toI 0) = now :=
        getD_set_self _ _ _ _ htoIb
      have hbset_ne : ∀ v, v ≠ toI →
          ((st1.backtracker.set toI now).getD v 0) = st1.backtracker.getD v 0 := by
        intro v hv
        exact getD_set_ne _ _ _ _ _ (fun hh => hv hh.symm)
      have hf4 : ∀ v, ((st1.weights.set toI (W.add wsum p.2)).getD v W.infinity)
          = ws.getD v W.infinity ∨
          wlt W ((st1.weights.set toI (W.add wsum p.2)).getD v W.infinity)
            (ws.getD v W.infinity) := by
        intro v
        by_cases hv : v = toI
        · subst hv
          rw [hset_toI]
          rcases hcur with h1 | h1
          · exact Or.inr (h1 ▸ hlt_added)
          · exact Or.inr (wlt_trans hW hlt_added h1)
        · rw [hset_ne v hv]
          exact hR.f4 v
      refine
        { f1 := by simpa using hR.f1
          f2 := by simpa using hR.f2
          f3 := ?_, f3b := ?_, f4 := hf4, f5 := ?_, f15 := ?_, f8 := ?_
          f9 := ?_, f10 := ?_, f11 := ?_, f12 := ?_, f13 := ?_, f14 := ?_
          f16 := ?_, f17 := ?_ }
      · intro v hv
        have hvne : v ≠ toI := by
          intro hEq
          rw [hEq, hvisT] at hv
          exact Bool.noConfusion hv
        show ((st1.weights.set toI (W.add wsum p.2)).getD v W.infinity) = _
        rw [hset_ne v hvne]
        exact hR.f3 v hv
      · intro v hv
        have hvne : v ≠ toI := by
          intro hEq
          rw [hEq, hvisT] at hv
          exact Bool.noConfusion hv
        show ((st1.backtracker.set toI now).getD v 0) = _
        rw [hbset_ne v hvne]
        exact hR.f3b v hv
      · show ((st1.weights.set toI (W.add wsum p.2)).getD now W.infinity) = _
        rw [hset_ne now (fun hh => htoInow hh.symm)]
        exact hR.f5
      · obtain ⟨pushed, hp15, hfacts⟩ := hR.f15
        refine ⟨pushed ++ [(toI, W.add wsum p.2)], ?_, ?_⟩
        · show st1.heap ++ [(toI, _)] = _
          rw [hset_toI, hp15, List.append_assoc]
        · intro e he
          rcases List.mem_append.mp he with h1 | h1
          · exact hfacts e h1
          · simp only [List.mem_singleton] at h1
            subst h1
            exact ⟨htoIlt, hvisT⟩
      · intro v
        by_cases hv : v = toI
        · subst hv
          show _ = W.infinity ∨ Reach W D edgesOf S v
            ((st1.weights.set v (W.add wsum p.2)).getD v W.infinity)
          rw [hset_toI]
          exact Or.inr hReachAdded
        · show ((st1.weights.set toI (W.add wsum p.2)).getD v W.infinity)
            = W.infinity ∨ _
          rw [hset_ne v hv]
          exact hR.f8 v
      · intro e he
        show e.2 = W.infinity ∨ _
        rcases List.mem_append.mp he with h1 | h1
        · exact hR.f9 e h1
        · simp only [List.mem_singleton] at h1
          subst h1
          rw [hset_toI]
          exact Or.inr hReachAdded
      · intro e he
        rcases List.mem_append.mp he with h1 | h1
        · by_cases hv : e.1 = toI
          · show e.2 = ((st1.weights.set toI (W.add wsum p.2)).getD e.1 W.infinity)
              ∨ _
            rw [hv, hset_toI]
            rcases hR.f10 e h1 with h2 | h2
            · rw [hv] at h2
              exact Or.inr (h2 ▸ hlt_added)
            · rw [hv] at h2
              exact Or.inr (wlt_trans hW hlt_added h2)
          · show e.2 = ((st1.weights.set toI (W.add wsum p.2)).getD e.1 W.infinity)
              ∨ _
            rw [hset_ne e.1 hv]
            exact hR.f10 e h1
        · simp only [List.mem_singleton] at h1
          subst h1
          exact Or.inl rfl
      · intro v hv hvn hvi
        by_cases hveq : v = toI
        · subst hveq
          refine List.mem_append.mpr (Or.inr ?_)
          show (v, _) ∈ [(v, (st1.weights.set v (W.add wsum p.2)).getD v W.infinity)]
          simp
        · revert hvi
          show ((st1.weights.set toI (W.add wsum p.2)).getD v W.infinity) ≠ _ →
            (v, (st1.weights.set toI (W.add wsum p.2)).getD v W.infinity) ∈ _
          rw [hset_ne v hveq]
          intro hvi
          exact List.mem_append.mpr (Or.inl (hR.f11 v hv hvn hvi))
      · intro v hvS
        by_cases hveq : v = toI
        · exfalso
          subst hveq
          rw [hR.f12 v hvS] at hc
          exact hZadded hc
        · show ((st1.weights.set toI (W.add wsum p.2)).getD v W.infinity) = W.zero
          rw [hset_ne v hveq]
          exact hR.f12 v hvS
      · intro v
        by_cases hveq : v = toI
        · subst hveq
          refine Or.inr (Or.inr ⟨now, p.2, hedge, ?_, ?_, Or.inr rfl, ?_⟩)
          · exact hbset_toI
          · show ((st1.weights.set v (W.add wsum p.2)).getD v W.infinity)
              = W.add ((st1.weights.set v (W.add wsum p.2)).getD now W.infinity) p.2
            rw [hset_toI, hset_ne now (fun hh => htoInow hh.symm), hR.f5, hnwl]
          · show ((st1.weights.set v (W.add wsum p.2)).getD now W.infinity)
              ≠ W.infinity
            rw [hset_ne now (fun hh => htoInow hh.symm), hR.f5, hnwl]
            exact hwsum_ne
        · rcases hR.f13 v with h1 | h1 | ⟨u, w', he2, hb2, hw2, hv2, hn2⟩
          · refine Or.inl ?_
            show ((st1.weights.set toI (W.add wsum p.2)).getD v W.infinity) = _
            rw [hset_ne v hveq]
            exact h1
          · exact Or.inr (Or.inl h1)
          · have hune : u ≠ toI := by
              intro hEq
              rcases hv2 with h3 | h3
              · rw [hEq, hvisT] at h3
                exact Bool.noConfusion h3
              · exact htoInow (hEq ▸ h3)
            refine Or.inr (Or.inr ⟨u, w', he2, ?_, ?_, hv2, ?_⟩)
            · show ((st1.backtracker.set toI now).getD v 0) = u
              rw [hbset_ne v hveq]
              exact hb2
            · show ((st1.weights.set toI (W.add wsum p.2)).getD v W.infinity)
                = W.add ((st1.weights.set toI (W.add wsum p.2)).getD u W.infinity) w'
              rw [hset_ne v hveq, hset_ne u hune]
              exact hw2
            · show ((st1.weights.set toI (W.add wsum p.2)).getD u W.infinity)
                ≠ W.infinity
              rw [hset_ne u hune]
              exact hn2
      · intro v hvne
        by_cases hveq : v = toI
        · subst hveq
          show wlt W ((st1.weights.set v (W.add wsum p.2)).getD v W.infinity)
            (ws.getD v W.infinity)
          rw [hset_toI]
          rcases hcur with h2 | h2
          · exact h2 ▸ hlt_added
          · exact wlt_trans hW hlt_added h2
        · revert hvne
          show ((st1.backtracker.set toI now).getD v 0) ≠ _ → _
          rw [hbset_ne v hveq]
          intro hvne
          have := hR.f14 v hvne
          show wlt W ((st1.weights.set toI (W.add wsum p.2)).getD v W.infinity) _
          rw [hset_ne v hveq]
          exact this
      · intro v
        by_cases hveq : v = toI
        · subst hveq
          show wle W W.zero ((st1.weights.set v (W.add wsum p.2)).getD v W.infinity)
          rw [hset_toI]
          exact hZadded
        · show wle W W.zero ((st1.weights.set toI (W.add wsum p.2)).getD v W.infinity)
          rw [hset_ne v hveq]
          exact hR.f16 v
      · intro e he
        rcases List.mem_append.mp he with h1 | h1
        · exact hR.f17 e h1
        · simp only [List.mem_singleton] at h1
          subst h1
          show wle W W.zero ((st1.weights.set toI (W.add wsum p.2)).getD toI W.infinity)
          rw [hset_toI]
          exact hZadded
    · -- no improvement: only the unconditional push happens
      subst hst
      refine
        { f1 := hR.f1, f2 := hR.f2, f3 := hR.f3, f3b := hR.f3b, f4 := hR.f4
          f5 := hR.f5, f15 := ?_, f8 := hR.f8, f9 := ?_, f10 := ?_, f11 := ?_
          f12 := hR.f12, f13 := hR.f13, f14 := hR.f14, f16 := hR.f16, f17 := ?_ }
      · obtain ⟨pushed, hp15, hfacts⟩ := hR.f15
        refine ⟨pushed ++ [(toI, st1.weights.getD toI W.infinity)], ?_, ?_⟩
        · show st1.heap ++ _ = _
          rw [hp15, List.append_assoc]
        · intro e he
          rcases List.mem_append.mp he with h1 | h1
          · exact hfacts e h1
          · simp only [List.mem_singleton] at h1
            subst h1
            exact ⟨htoIlt, hvisT⟩
      · intro e he
        rcases List.mem_append.mp he with h1 | h1
        · exact hR.f9 e h1
        · simp only [List.mem_singleton] at h1
          subst h1
          exact hR.f8 toI
      · intro e he
        rcases List.mem_append.mp he with h1 | h1
        · exact hR.f10 e h1
        · simp only [List.mem_singleton] at h1
          subst h1
          exact Or.inl rfl
      · intro v hv hvn hvi
        exact List.mem_append.mpr (Or.inl (hR.f11 v hv hvn hvi))
      · intro e he
        rcases List.mem_append.mp he with h1 | h1
        · exact hR.f17 e h1
        · simp only [List.mem_singleton] at h1
          subst h1
          exact hR.f16 toI
  · -- baseline f13: weaken the visited disjunct
    intro v
    rcases hBT v with h1 | h1 | ⟨u, w', h2, h3, h4, h5, h6⟩
    · exact Or.inl h1
    · exact Or.inr (Or.inl h1)
    · exact Or.inr (Or.inr ⟨u, w', h2, h3, h4, Or.inl h5, h6⟩)

end RelaxMain

section ReachLemmas

variable {V : Type} [DecidableEq V] {α : Type} {W : WeightOps α}
variable {D : Dijkstra V} {edgesOf : V → List (V × α)} {S : List Nat}

theorem zero_le_reach (hW : LawfulW W) {v : Nat} {s : α}
    (h : Reach W D edgesOf S v s) : wle W W.zero s := by
  induction h with
  | base i hi => exact wle_refl hW W.zero
  | step u v w s hr he ih => exact hW.le_trans _ _ _ ih (hW.le_add_left s w)

theorem reach_of_reachIdx {v : Nat} (h : ReachIdx D edgesOf S v) :
    ∃ s, Reach W D edgesOf S v s := by
  induction h with
  | base i hi => exact ⟨W.zero, Reach.base i hi⟩
  | step u v w hr he ih =>
      obtain ⟨s, hs⟩ := ih
      exact ⟨W.add s w, Reach.step u v w s hs he⟩

theorem reachIdx_of_reach {v : Nat} {s : α} (h : Reach W D edgesOf S v s) :
    ReachIdx D edgesOf S v := by
  induction h with
  | base i hi => exact ReachIdx.base i hi
  | step u v w s hr he ih => exact ReachIdx.step u v w ih he

theorem getD_get? {β : Type} : ∀ (l : List β) (i : Nat) (d : β), i < l.length →
    l.get? i = some (l.getD i d) := by
  intro l
  induction l with
  | nil => intro i d h; simp at h
  | cons x xs ih =>
      intro i d h
      cases i with
      | zero => rfl
      | succ j =>
          have : j < xs.length := by simpa using h
          simpa using ih j d this

end ReachLemmas

section InitLemmas

variable {V : Type} [DecidableEq V] {α : Type} {W : WeightOps α}

theorem initStarts_spec : ∀ (S : List Nat) (ws : List α) (heap : List (Nat × α)),
    (∀ i ∈ S, i < ws.length) →
    (initStarts W S ws heap).1.length = ws.length ∧
    (initStarts W S ws heap).2 = heap ++ S.map (fun i => (i, W.zero)) ∧
    (∀ v ∈ S, (initStarts W S ws heap).1.getD v W.infinity = W.zero) ∧
    (∀ v, v ∉ S → (initStarts W S ws heap).1.getD v W.infinity =
      ws.getD v W.infinity) := by
  intro S
  induction S with
  | nil => intro ws heap _; simp [initStarts]
  | cons i rest ih =>
      intro ws heap hbound
      have hi : i < ws.length := hbound i (List.mem_cons_self i rest)
      have hzero : (ws.set i W.zero).getD i W.infinity = W.zero :=
        getD_set_self ws i W.zero W.infinity hi
      have hbound' : ∀ j ∈ rest, j < (ws.set i W.zero).length := by
        intro j hj
        rw [List.length_set]
        exact hbound j (List.mem_cons_of_mem i hj)
      obtain ⟨ihlen, ihheap, ihmem, ihnot⟩ :=
        ih (ws.set i W.zero) (heap ++ [(i, (ws.set i W.zero).getD i W.infinity)])
          hbound'
      simp only [initStarts]
      refine ⟨by rw [ihlen, List.length_set], ?_, ?_, ?_⟩
      · rw [ihheap, hzero, List.append_assoc]
        simp
      · intro v hv
        by_cases hvr : v ∈ rest
        · exact ihmem v hvr
        · have hvi : v = i := by
            rcases List.mem_cons.mp hv with h1 | h1
            · exact h1
            · exact absurd h1 hvr
          subst hvi
          rw [ihnot v hvr, hzero]
      · intro v hv
        have hvi : v ≠ i := fun h => hv (h ▸ List.mem_cons_self i rest)
        have hvr : v ∉ rest := fun h => hv (List.mem_cons_of_mem i h)
        rw [ihnot v hvr]
        exact getD_set_ne ws i v W.zero W.infinity (fun h => hvi h.symm)

end InitLemmas

section InvInit

variable {V : Type} [DecidableEq V] {α : Type} {W : WeightOps α}
variable {D : Dijkstra V} {edgesOf : V → List (V × α)} {S E : List Nat}

theorem inv_init (hW : LawfulW W) (hSlt : ∀ i ∈ S, i < D.graph.length)
    {p : Nat × α} {heap1 : List (Nat × α)}
    (hpop : heapPop W
      (initStarts W S (List.replicate D.graph.length W.infinity) []).2 =
        some (p, heap1)) :
    DInv W D edgesOf S E
      (initStarts W S (List.replicate D.graph.length W.infinity) []).1
      (List.replicate D.graph.length 0) (List.replicate D.graph.length false)
      heap1 p.1 p.2 := by
  have hbound : ∀ i ∈ S, i < (List.replicate D.graph.length (W.infinity : α)).length := by
    intro i hi
    rw [List.length_replicate]
    exact hSlt i hi
  obtain ⟨hlen, hheap, hmem, hnot⟩ := initStarts_spec S
    (List.replicate D.graph.length W.infinity) [] hbound
  set ws1 := (initStarts W S (List.replicate D.graph.length W.infinity) []).1
  set heap0 := (initStarts W S (List.replicate D.graph.length W.infinity) []).2
  have hheap0 : heap0 = S.map (fun i => (i, W.zero)) := by
    rw [hheap]; simp
  have hws_not : ∀ v, v ∉ S → ws1.getD v W.infinity = W.infinity := by
    intro v hv
    rw [hnot v hv]
    exact getD_replicate_self _ _ _
  have hp_mem : p ∈ heap0 := heapPop_mem heap0 p heap1 hpop
  have hp_shape : p.1 ∈ S ∧ p.2 = W.zero := by
    rw [hheap0] at hp_mem
    obtain ⟨i, hi, hpi⟩ := List.mem_map.mp hp_mem
    constructor
    · rw [← hpi]; exact hi
    · rw [← hpi]
  have hsub : ∀ e ∈ heap1, e ∈ heap0 := heapPop_subset heap0 p heap1 hpop
  have hshape : ∀ e, e ∈ heap0 → e.1 ∈ S ∧ e.2 = W.zero := by
    intro e he
    rw [hheap0] at he
    obtain ⟨i, hi, hei⟩ := List.mem_map.mp he
    exact ⟨by rw [← hei]; exact hi, by rw [← hei]⟩
  have hmemheap : ∀ v ∈ S, v ≠ p.1 → (v, W.zero) ∈ heap1 := by
    intro v hv hvp
    have h0 : (v, W.zero) ∈ heap0 := by
      rw [hheap0]
      exact List.mem_map.mpr ⟨v, hv, rfl⟩
    rcases heapPop_elem heap0 p heap1 hpop (v, W.zero) h0 with h1 | h1
    · exact absurd (congrArg Prod.fst h1) hvp
    · exact h1
  refine
    { hlen_w := by rw [hlen, List.length_replicate]
      hlen_b := List.length_replicate _ _
      hlen_v := List.length_replicate _ _
      hnow_lt := hSlt p.1 hp_shape.1
      hheap_lt := fun e he => hSlt e.1 (hshape e (hsub e he)).1
      hA := getD_replicate_self _ _ _
      hNOWL := by rw [hmem p.1 hp_shape.1, hp_shape.2]
      hC := ?_, hDs := ?_, hHW := ?_, hEP := ?_, hF := ?_, hG := ?_
      hH := ?_, hI := ?_, hJ := ?_
      hSW := hmem
      hBT := ?_ }
  · intro v
    by_cases hv : v ∈ S
    · refine Or.inr ?_
      rw [hmem v hv]
      exact Reach.base v hv
    · exact Or.inl (hws_not v hv)
  · intro e he
    have := hshape e (hsub e he)
    refine Or.inr ?_
    rw [this.2]
    exact Reach.base e.1 this.1
  · intro e he
    have := hshape e (hsub e he)
    refine Or.inl ?_
    rw [this.2, hmem e.1 this.1]
  · intro v _ hvp hvi
    by_cases hv : v ∈ S
    · rw [hmem v hv]
      exact hmemheap v hv hvp
    · exact absurd (hws_not v hv) hvi
  · intro u hu
    rw [getD_replicate_self] at hu
    exact Bool.noConfusion hu
  · intro v s _ hr
    rw [hp_shape.2]
    exact zero_le_reach hW hr
  · intro v hv _ hvp
    refine ⟨W.zero, hmemheap v hv hvp, wle_refl hW _⟩
  · intro u hu
    rw [getD_replicate_self] at hu
    exact Bool.noConfusion hu
  · intro e _
    exact getD_replicate_self _ _ _
  · intro v
    by_cases hv : v ∈ S
    · exact Or.inr (Or.inl hv)
    · exact Or.inl (hws_not v hv)

end InvInit

section InvStep

variable {V : Type} [DecidableEq V] [Inhabited V] {α : Type} {W : WeightOps α}
variable {D : Dijkstra V} {edgesOf : V → List (V × α)} {S E : List Nat}

theorem inv_step (hW : LawfulW W)
    (hmapb : ∀ v i, hmGet D.v_to_index_map v = some i → i < D.graph.length)
    {ws : List α} {bt : List Nat} {vis : List Bool} {heap : List (Nat × α)}
    {now : Nat} {wsum : α} {st' : TState α} {p : Nat × α}
    {heap3 : List (Nat × α)}
    (hInv : DInv W D edgesOf S E ws bt vis heap now wsum)
    (hnotE : now ∉ E)
    (hrelax : relaxEdges W D.v_to_index_map vis now wsum
      (edgesOf (D.graph.getD now default)) ⟨ws, bt, heap⟩ = some st')
    (hpop : popUnvisited W (vis.set now true) (st'.heap.length + 1) st'.heap =
      some (p, heap3)) :
    DInv W D edgesOf S E st'.weights st'.backtracker (vis.set now true)
      heap3 p.1 p.2 := by
  obtain ⟨hlen_w, hlen_b, hlen_v, hnow_lt, hheap_lt, hA, hNOWL, hC, hDs, hHW,
    hEP, hF, hG, hH, hI, hJ, hSW, hBT⟩ := hInv
  have hvnow : D.graph.get? now = some (D.graph.getD now default) :=
    getD_get? D.graph now default hnow_lt
  have hzw : wle W W.zero wsum := by
    rcases hC now with h1 | h1
    · rw [hNOWL] at h1
      rw [h1]
      exact hW.le_infinity W.zero
    · rw [hNOWL] at h1
      exact zero_le_reach hW h1
  have hRN : wsum = W.infinity ∨ Reach W D edgesOf S now wsum := by
    rcases hC now with h1 | h1
    · exact Or.inl (hNOWL ▸ h1)
    · exact Or.inr (hNOWL ▸ h1)
  have hzws : ∀ v, wle W W.zero (ws.getD v W.infinity) := by
    intro v
    rcases hC v with h1 | h1
    · rw [h1]; exact hW.le_infinity W.zero
    · exact zero_le_reach hW h1
  have hzh : ∀ e ∈ heap, wle W W.zero e.2 := by
    intro e he
    rcases hDs e he with h1 | h1
    · rw [h1]; exact hW.le_infinity W.zero
    · exact zero_le_reach hW h1
  have R := relax_main hW hmapb hvnow (fun q hq => hq) hlen_w hlen_b hNOWL hzw
    hRN hC hDs hHW hEP hSW hBT hzws hzh hrelax
  obtain ⟨pushed, happ, hpf⟩ := R.f15
  set vis' := vis.set now true with hvis'
  have hnow_len : now < vis.length := by rw [hlen_v]; exact hnow_lt
  have hpA : vis'.getD p.1 false = false :=
    pu_unvisited _ _ _ p heap3 hpop
  have hpne_now : p.1 ≠ now := by
    intro hEq
    rw [hEq, getD_set_true_self vis now hnow_len] at hpA
    exact Bool.noConfusion hpA
  have hvisp_old : vis.getD p.1 false = false := by
    rw [← getD_set_true_of_ne vis now p.1 hpne_now]
    exact hpA
  have hp_mem : p ∈ st'.heap := pu_mem _ _ _ p heap3 hpop
  have hst_lt : ∀ e ∈ st'.heap, e.1 < D.graph.length := by
    intro e he
    rw [happ] at he
    rcases List.mem_append.mp he with h1 | h1
    · exact hheap_lt e h1
    · exact (hpf e h1).1
  have hsub3 : ∀ e ∈ heap3, e ∈ st'.heap := pu_subset _ _ _ p heap3 hpop
  have hheap_sub : ∀ e ∈ heap, e ∈ st'.heap := by
    intro e he
    rw [happ]
    exact List.mem_append.mpr (Or.inl he)
  have hNOWL' : st'.weights.getD p.1 W.infinity = p.2 := by
    rcases R.f10 p hp_mem with h1 | h1
    · exact h1.symm
    · exfalso
      by_cases hcur : st'.weights.getD p.1 W.infinity = W.infinity
      · rw [hcur] at h1
        exact (not_wle_of_wlt hW h1) (hW.le_infinity p.2)
      · have hent := R.f11 p.1 hvisp_old hpne_now hcur
        have hle := pu_le_unvisited hW _ _ _ p heap3 hpop
          (p.1, st'.weights.getD p.1 W.infinity) hent hpA
        have := wlt_of_wle_of_wlt hW hle h1
        rw [wlt, cmp_self_eq hW] at this
        exact Ordering.noConfusion this
  have hvis_old_of_new : ∀ v, vis'.getD v false = false → v ≠ now ∧
      vis.getD v false = false := by
    intro v hv
    have hvn : v ≠ now := by
      intro hEq
      rw [hEq, getD_set_true_self vis now hnow_len] at hv
      exact Bool.noConfusion hv
    refine ⟨hvn, ?_⟩
    rw [← getD_set_true_of_ne vis now v hvn]
    exact hv
  refine
    { hlen_w := R.f1.trans hlen_w
      hlen_b := R.f2.trans hlen_b
      hlen_v := by rw [List.length_set]; exact hlen_v
      hnow_lt := hst_lt p hp_mem
      hheap_lt := fun e he => hst_lt e (hsub3 e he)
      hA := hpA
      hNOWL := hNOWL'
      hC := R.f8
      hDs := fun e he => R.f9 e (hsub3 e he)
      hHW := fun e he => R.f10 e (hsub3 e he)
      hEP := ?_, hF := ?_, hG := ?_, hH := ?_, hI := ?_, hJ := ?_
      hSW := R.f12
      hBT := ?_ }
  · -- hEP
    intro v hv hvp hvi
    obtain ⟨hvn, hvold⟩ := hvis_old_of_new v hv
    have hent := R.f11 v hvold hvn hvi
    rcases pu_elem _ _ _ p heap3 hpop (v, st'.weights.getD v W.infinity) hent hv
      with h1 | h1
    · exact absurd (congrArg Prod.fst h1) hvp
    · exact h1
  · -- hF
    intro u hu s hr
    by_cases hunow : u = now
    · subst hunow
      rw [R.f5, hNOWL]
      exact hG u s hA hr
    · have huold : vis.getD u false = true := by
        rw [← getD_set_true_of_ne vis now u hunow]
        exact hu
      rw [R.f3 u huold]
      exact hF u huold s hr
  · -- hG
    intro v s hv hr
    induction hr with
    | base i hi =>
        obtain ⟨hvn, hvold⟩ := hvis_old_of_new i hv
        obtain ⟨x, hx_mem, hx_le⟩ := hH i hi hvold hvn
        have hle := pu_le_unvisited hW _ _ _ p heap3 hpop (i, x)
          (hheap_sub (i, x) hx_mem) hv
        exact hW.le_trans _ _ _ hle hx_le
    | step u v2 w t hru he ih =>
        by_cases hu : vis'.getD u false = false
        · exact hW.le_trans _ _ _ (ih hu) (hW.le_add_left t w)
        · have huT : vis'.getD u false = true := by
            revert hu
            cases vis'.getD u false <;> simp
          obtain ⟨hv2n, hv2old⟩ := hvis_old_of_new v2 hv
          obtain ⟨vu, hgu, tv, htm, htl⟩ := he
          by_cases hunow : u = now
          · subst hunow
            rw [hvnow] at hgu
            have hvu : vu = D.graph.getD u default := by
              simpa using hgu.symm
            subst hvu
            obtain ⟨x, hx_mem, hx_le⟩ := relax_edge_cover hW hmapb
              (edgesOf (D.graph.getD u default)) ⟨ws, bt, heap⟩ st' hrelax
              hlen_w (tv, w) htm v2 htl hv2old
            have hle := pu_le_unvisited hW _ _ _ p heap3 hpop (v2, x)
              hx_mem hv
            have h2 : wle W (W.add wsum w) (W.add t w) :=
              hW.add_le_add _ _ _ (hG u t hA hru)
            exact hW.le_trans _ _ _ hle (hW.le_trans _ _ _ hx_le h2)
          · have huold : vis.getD u false = true := by
              rw [← getD_set_true_of_ne vis now u hunow]
              exact huT
            rcases hI u huold vu hgu (tv, w) htm v2 htl with h1 | h1 | h1
            · rw [hv2old] at h1
              exact Bool.noConfusion h1
            · exfalso
              rw [h1, getD_set_true_self vis now hnow_len] at hv
              exact Bool.noConfusion hv
            · obtain ⟨x, hx_mem, hx_le⟩ := h1
              have hle := pu_le_unvisited hW _ _ _ p heap3 hpop (v2, x)
                (hheap_sub (v2, x) hx_mem) hv
              have h2 : wle W (W.add (ws.getD u W.infinity) w) (W.add t w) :=
                hW.add_le_add _ _ _ (hF u huold t hru)
              exact hW.le_trans _ _ _ hle (hW.le_trans _ _ _ hx_le h2)
  · -- hH
    intro v hv hvnew hvp
    obtain ⟨hvn, hvold⟩ := hvis_old_of_new v hvnew
    obtain ⟨x, hx_mem, hx_le⟩ := hH v hv hvold hvn
    rcases pu_elem _ _ _ p heap3 hpop (v, x) (hheap_sub (v, x) hx_mem) hvnew
      with h1 | h1
    · exact absurd (congrArg Prod.fst h1) hvp
    · exact ⟨x, h1, hx_le⟩
  · -- hI
    intro u hu vu hgu q hq j hlook
    by_cases hunow : u = now
    · subst hunow
      rw [hvnow] at hgu
      have hvu : vu = D.graph.getD u default := by
        simpa using hgu.symm
      subst hvu
      by_cases hvj : vis.getD j false = true
      · exact Or.inl (getD_set_true vis u j hvj)
      · have hvjf : vis.getD j false = false := by
          revert hvj
          cases vis.getD j false <;> simp
        obtain ⟨x, hx_mem, hx_le⟩ := relax_edge_cover hW hmapb
          (edgesOf (D.graph.getD u default)) ⟨ws, bt, heap⟩ st' hrelax
          hlen_w q hq j hlook hvjf
        by_cases hvj' : vis'.getD j false = true
        · exact Or.inl hvj'
        · have hvjf' : vis'.getD j false = false := by
            revert hvj'
            cases vis'.getD j false <;> simp
          rcases pu_elem _ _ _ p heap3 hpop (j, x) hx_mem hvjf' with h1 | h1
          · exact Or.inr (Or.inl (congrArg Prod.fst h1))
          · refine Or.inr (Or.inr ⟨x, h1, ?_⟩)
            rw [R.f5, hNOWL]
            exact hx_le
    · have huold : vis.getD u false = true := by
        rw [← getD_set_true_of_ne vis now u hunow]
        exact hu
      rcases hI u huold vu hgu q hq j hlook with h1 | h1 | h1
      · exact Or.inl (getD_set_true vis now j h1)
      · refine Or.inl ?_
        rw [h1]
        exact getD_set_true_self vis now hnow_len
      · obtain ⟨x, hx_mem, hx_le⟩ := h1
        by_cases hvj' : vis'.getD j false = true
        · exact Or.inl hvj'
        · have hvjf' : vis'.getD j false = false := by
            revert hvj'
            cases vis'.getD j false <;> simp
          rcases pu_elem _ _ _ p heap3 hpop (j, x)
            (hheap_sub (j, x) hx_mem) hvjf' with h1 | h1
          · exact Or.inr (Or.inl (congrArg Prod.fst h1))
          · refine Or.inr (Or.inr ⟨x, h1, ?_⟩)
            rw [R.f3 u huold]
            exact hx_le
  · -- hJ
    intro e he
    have hen : e ≠ now := fun hEq => hnotE (hEq ▸ he)
    rw [getD_set_true_of_ne vis now e hen]
    exact hJ e he
  · -- hBT
    intro v
    rcases R.f13 v with h1 | h1 | ⟨u, w', he2, hb2, hw2, hv2, hn2⟩
    · exact Or.inl h1
    · exact Or.inr (Or.inl h1)
    · refine Or.inr (Or.inr ⟨u, w', he2, hb2, hw2, ?_, hn2⟩)
      rcases hv2 with h3 | h3
      · exact getD_set_true vis now u h3
      · rw [h3]
        exact getD_set_true_self vis now hnow_len

end InvStep

section MasterLemmas

variable {V : Type} [DecidableEq V] [Inhabited V] {α : Type} {W : WeightOps α}
variable {D : Dijkstra V} {edgesOf : V → List (V × α)} {S E : List Nat}

theorem get?_getD {β : Type} : ∀ (l : List β) (i : Nat) (x d : β),
    l.get? i = some x → l.getD i d = x := by
  intro l
  induction l with
  | nil => intro i x d h; simp at h
  | cons y ys ih =>
      intro i x d h
      cases i with
      | zero =>
          simp only [List.get?] at h
          simp only [List.getD, Option.getD]
          exact Option.some.inj h
      | succ j => exact ih j x d h

theorem loop_ok_master (hW : LawfulW W)
    (hmapb : ∀ v i, hmGet D.v_to_index_map v = some i → i < D.graph.length) :
    ∀ (fuel : Nat) (ws : List α) (bt : List Nat) (vis : List Bool)
      (heap : List (Nat × α)) (now : Nat) (wsum : α) (route : List V) (w : α),
    DInv W D edgesOf S E ws bt vis heap now wsum →
    loopGo W D edgesOf S E fuel ws bt vis heap now wsum =
      FSPResult.ok route w →
    ∃ ws' bt' vis' heap' now',
      DInv W D edgesOf S E ws' bt' vis' heap' now' w ∧ now' ∈ E ∧
      reconstruct D.graph bt' S (D.graph.length + 1) now' [] = some route := by
  intro fuel
  induction fuel with
  | zero =>
      intro ws bt vis heap now wsum route w _ hok
      exact FSPResult.noConfusion hok
  | succ f ih =>
      intro ws bt vis heap now wsum route w hInv hok
      simp only [loopGo] at hok
      split at hok
      · rename_i hnowE
        split at hok
        · exact FSPResult.noConfusion hok
        · rename_i route0 hrec
          obtain ⟨hr, hw⟩ := FSPResult.ok.inj hok
          exact ⟨ws, bt, vis, heap, now, hw ▸ hInv, hnowE, hr ▸ hrec⟩
      · rename_i hnowE
        split at hok
        · exact FSPResult.noConfusion hok
        · rename_i st hrelax
          split at hok
          · exact FSPResult.noConfusion hok
          · rename_i p heap' hpop
            exact ih st.weights st.backtracker (vis.set now true) heap' p.1 p.2
              route w (inv_step hW hmapb hInv hnowE hrelax hpop) hok

theorem loop_ok_exit :
    ∀ (fuel : Nat) (ws : List α) (bt : List Nat) (vis : List Bool)
      (heap : List (Nat × α)) (now : Nat) (wsum : α) (route : List V) (w : α),
    loopGo W D edgesOf S E fuel ws bt vis heap now wsum =
      FSPResult.ok route w →
    ∃ bt' now', now' ∈ E ∧
      reconstruct D.graph bt' S (D.graph.length + 1) now' [] = some route := by
  intro fuel
  induction fuel with
  | zero =>
      intro ws bt vis heap now wsum route w hok
      exact FSPResult.noConfusion hok
  | succ f ih =>
      intro ws bt vis heap now wsum route w hok
      simp only [loopGo] at hok
      split at hok
      · rename_i hnowE
        split at hok
        · exact FSPResult.noConfusion hok
        · rename_i route0 hrec
          obtain ⟨hr, _⟩ := FSPResult.ok.inj hok
          exact ⟨bt, now, hnowE, hr ▸ hrec⟩
      · split at hok
        · exact FSPResult.noConfusion hok
        · rename_i st hrelax
          split at hok
          · exact FSPResult.noConfusion hok
          · rename_i p heap' hpop
            exact ih st.weights st.backtracker (vis.set now true) heap' p.1 p.2
              route w hok

omit [DecidableEq V] in
theorem reconstruct_head {bt : List Nat} :
    ∀ (fuel now : Nat) (acc r : List V),
    reconstruct D.graph bt S fuel now acc = some r →
    ∃ j ∈ S, r.head? = some (D.graph.getD j default) := by
  intro fuel
  induction fuel with
  | zero => intro now acc r h; exact Option.noConfusion h
  | succ f ih =>
      intro now acc r h
      simp only [reconstruct] at h
      split at h
      · rename_i hnow
        refine ⟨now, hnow, ?_⟩
        rw [← Option.some.inj h]
        rfl
      · exact ih (bt.getD now 0) (D.graph.getD now default :: acc) r h

omit [DecidableEq V] in
theorem reconstruct_last {bt : List Nat} :
    ∀ (fuel now : Nat) (acc r : List V),
    reconstruct D.graph bt S fuel now acc = some r →
    r.getLast? = (D.graph.getD now default :: acc).getLast? := by
  intro fuel
  induction fuel with
  | zero => intro now acc r h; exact Option.noConfusion h
  | succ f ih =>
      intro now acc r h
      simp only [reconstruct] at h
      split at h
      · rw [← Option.some.inj h]
      · rename_i hnow
        rw [ih (bt.getD now 0) (D.graph.getD now default :: acc) r h]
        rfl

theorem reconstruct_chain
    (hmapget : ∀ v i, hmGet D.v_to_index_map v = some i →
      D.graph.get? i = some v)
    {ws : List α} {bt : List Nat} {vis : List Bool}
    (hSW : ∀ v ∈ S, ws.getD v W.infinity = W.zero)
    (hBT : ∀ v, ws.getD v W.infinity = W.infinity ∨ v ∈ S ∨
      ∃ u w', HasEdge D edgesOf u v w' ∧ bt.getD v 0 = u ∧
        ws.getD v W.infinity = W.add (ws.getD u W.infinity) w' ∧
        vis.getD u false = true ∧ ws.getD u W.infinity ≠ W.infinity) :
    ∀ (fuel now : Nat) (acc : List V) (r : List V) (wacc : List α),
    reconstruct D.graph bt S fuel now acc = some r →
    ws.getD now W.infinity ≠ W.infinity →
    EdgeChain edgesOf (D.graph.getD now default :: acc) wacc →
    ∃ wlist, EdgeChain edgesOf r wlist ∧
      List.foldl W.add (ws.getD now W.infinity) wacc =
        List.foldl W.add W.zero wlist := by
  intro fuel
  induction fuel with
  | zero => intro now acc r wacc h; exact Option.noConfusion h
  | succ f ih =>
      intro now acc r wacc h hni hchain
      simp only [reconstruct] at h
      split at h
      · rename_i hnow
        refine ⟨wacc, ?_, ?_⟩
        · rw [← Option.some.inj h]
          exact hchain
        · rw [hSW now hnow]
      · rename_i hnow
        rcases hBT now with h1 | h1 | ⟨u, w', hedge, hbtu, heqw, _, hune⟩
        · exact absurd h1 hni
        · exact absurd h1 hnow
        · rw [hbtu] at h
          obtain ⟨vu, hgu, tv, htm, htl⟩ := hedge
          have hvu : D.graph.getD u default = vu := get?_getD _ _ _ _ hgu
          have htv : D.graph.getD now default = tv :=
            get?_getD _ _ _ _ (hmapget tv now htl)
          have hchain2 : EdgeChain edgesOf
              (D.graph.getD u default :: D.graph.getD now default :: acc)
              (w' :: wacc) := by
            refine ⟨?_, hchain⟩
            rw [hvu, htv]
            exact htm
          obtain ⟨wlist, hwl1, hwl2⟩ := ih u (D.graph.getD now default :: acc)
            r (w' :: wacc) h hune hchain2
          refine ⟨wlist, hwl1, ?_⟩
          rw [← hwl2, heqw]
          rfl

end MasterLemmas

section TopLevel

theorem fsp_unfold {V α : Type} [DecidableEq V] [Inhabited V] (W : WeightOps α)
    (D : Dijkstra V) (edgesOf : V → List (V × α)) (starts ends : List V) :
    findShortedPath W D edgesOf starts ends =
      (match heapPop W (initStarts W
          (dedupFirst [] (starts.filterMap (hmGet D.v_to_index_map)))
          (List.replicate D.graph.length W.infinity) []).2 with
       | none => FSPResult.panicPop
       | some (p, heap1) =>
           loopGo W D edgesOf
             (dedupFirst [] (starts.filterMap (hmGet D.v_to_index_map)))
             (dedupFirst [] (ends.filterMap (hmGet D.v_to_index_map)))
             (D.graph.length + 1)
             (initStarts W
               (dedupFirst [] (starts.filterMap (hmGet D.v_to_index_map)))
               (List.replicate D.graph.length W.infinity) []).1
             (List.replicate D.graph.length 0)
             (List.replicate D.graph.length false) heap1 p.1 p.2) := rfl

/-- C1: for a graph over a monotonic non-negative (lawful) weight algebra,
whenever `find_shorted_path` returns a `(route, w)` pair on a query whose
filtered start set is non-empty and from which some filtered end vertex is
reachable, the returned total weight `w` is the minimum, with respect to
the algebra's comparison, of the summed edge weights over all paths from
any filtered start vertex to any filtered end vertex: it is a lower bound
of every such path sum, and some such path sum is no larger than it.
(When the hypotheses hold but an infinite-weight edge makes the
reconstruction loop spin forever, nothing is returned and the claim is
about no value; the theorem is conditional on the return for that reason.) -/
theorem dijkstra_c1_min_total_weight {V α : Type} [DecidableEq V] [Inhabited V]
    (W : WeightOps α) (list : List V) (edgesOf : V → List (V × α))
    (starts ends : List V) (route : List V) (w : α)
    (hW : LawfulW W)
    (_hS : dedupFirst []
      (starts.filterMap (hmGet (Dijkstra.new list).v_to_index_map)) ≠ [])
    (hreach : ∃ e ∈ dedupFirst []
        (ends.filterMap (hmGet (Dijkstra.new list).v_to_index_map)),
      ReachIdx (Dijkstra.new list) edgesOf
        (dedupFirst []
          (starts.filterMap (hmGet (Dijkstra.new list).v_to_index_map))) e)
    (hok : findShortedPath W (Dijkstra.new list) edgesOf starts ends =
      FSPResult.ok route w) :
    (∀ e ∈ dedupFirst []
        (ends.filterMap (hmGet (Dijkstra.new list).v_to_index_map)),
      ∀ s, Reach W (Dijkstra.new list) edgesOf
        (dedupFirst []
          (starts.filterMap (hmGet (Dijkstra.new list).v_to_index_map))) e s →
        wle W w s) ∧
    (∃ e ∈ dedupFirst []
        (ends.filterMap (hmGet (Dijkstra.new list).v_to_index_map)),
      ∃ s, Reach W (Dijkstra.new list) edgesOf
        (dedupFirst []
          (starts.filterMap (hmGet (Dijkstra.new list).v_to_index_map))) e s ∧
        wle W s w) := by
  have hmapb : ∀ v i, hmGet (Dijkstra.new list).v_to_index_map v = some i →
      i < (Dijkstra.new list).graph.length := fun v i h => new_map_lt h
  rw [fsp_unfold] at hok
  split at hok
  · exact FSPResult.noConfusion hok
  · rename_i p heap1 hpop
    have hSlt : ∀ i ∈ dedupFirst []
        (starts.filterMap (hmGet (Dijkstra.new list).v_to_index_map)),
        i < (Dijkstra.new list).graph.length := by
      intro i hi
      obtain ⟨v, _, hvi⟩ := (mem_filtered_iff (Dijkstra.new list) starts i).mp hi
      exact new_map_lt hvi
    have hInv := @inv_init V _ _ W (Dijkstra.new list) edgesOf
      (dedupFirst [] (starts.filterMap (hmGet (Dijkstra.new list).v_to_index_map)))
      (dedupFirst [] (ends.filterMap (hmGet (Dijkstra.new list).v_to_index_map)))
      hW hSlt _ _ hpop
    obtain ⟨ws', bt', vis', heap', now', hInv', hnowE, _⟩ :=
      loop_ok_master hW hmapb _ _ _ _ _ _ _ route w hInv hok
    constructor
    · intro e he s hr
      exact hInv'.hG e s (hInv'.hJ e he) hr
    · rcases hInv'.hC now' with h1 | h1
      · obtain ⟨e0, he0, hri⟩ := hreach
        obtain ⟨s0, hs0⟩ := reach_of_reachIdx hri
        refine ⟨e0, he0, s0, hs0, ?_⟩
        rw [← hInv'.hNOWL, h1]
        exact hW.le_infinity s0
      · refine ⟨now', hnowE, ws'.getD now' W.infinity, h1, ?_⟩
        rw [hInv'.hNOWL]
        exact wle_refl hW w

/-- C2 (amended): for a graph over a lawful monotone non-negative weight
algebra, whenever `find_shorted_path` returns `(route, w)` and the
returned total weight is not the algebra's `infinity` value, consecutive
vertices of the route are connected by edges of the graph, and `w` equals
the left fold of `add` starting from `zero` over those edges' weights.
Without the `w ≠ infinity` proviso the claim is false, see
`dijkstra_c2_counterexample`: an edge of weight `infinity` can make the
loop stop at an end vertex whose backpointer was never written, and the
returned route then contains consecutive vertices with no connecting
edge. -/
theorem dijkstra_c2_weight_eq_path_sum {V α : Type} [DecidableEq V] [Inhabited V]
    (W : WeightOps α) (list : List V) (edgesOf : V → List (V × α))
    (starts ends : List V) (route : List V) (w : α)
    (hW : LawfulW W)
    (hok : findShortedPath W (Dijkstra.new list) edgesOf starts ends =
      FSPResult.ok route w)
    (hfin : w ≠ W.infinity) :
    ∃ wlist, EdgeChain edgesOf route wlist ∧
      w = List.foldl W.add W.zero wlist := by
  have hmapb : ∀ v i, hmGet (Dijkstra.new list).v_to_index_map v = some i →
      i < (Dijkstra.new list).graph.length := fun v i h => new_map_lt h
  have hmapget : ∀ v i, hmGet (Dijkstra.new list).v_to_index_map v = some i →
      (Dijkstra.new list).graph.get? i = some v := fun v i h => new_map_get? h
  rw [fsp_unfold] at hok
  split at hok
  · exact FSPResult.noConfusion hok
  · rename_i p heap1 hpop
    have hSlt : ∀ i ∈ dedupFirst []
        (starts.filterMap (hmGet (Dijkstra.new list).v_to_index_map)),
        i < (Dijkstra.new list).graph.length := by
      intro i hi
      obtain ⟨v, _, hvi⟩ := (mem_filtered_iff (Dijkstra.new list) starts i).mp hi
      exact new_map_lt hvi
    have hInv := @inv_init V _ _ W (Dijkstra.new list) edgesOf
      (dedupFirst [] (starts.filterMap (hmGet (Dijkstra.new list).v_to_index_map)))
      (dedupFirst [] (ends.filterMap (hmGet (Dijkstra.new list).v_to_index_map)))
      hW hSlt _ _ hpop
    obtain ⟨ws', bt', vis', heap', now', hInv', _, hrec⟩ :=
      loop_ok_master hW hmapb _ _ _ _ _ _ _ route w hInv hok
    have hni : ws'.getD now' W.infinity ≠ W.infinity := by
      rw [hInv'.hNOWL]
      exact hfin
    have hchain0 : EdgeChain edgesOf
        [(Dijkstra.new list).graph.getD now' default] ([] : List α) := trivial
    obtain ⟨wlist, hchain, heq⟩ := reconstruct_chain hmapget hInv'.hSW hInv'.hBT
      ((Dijkstra.new list).graph.length + 1) now' [] route [] hrec hni hchain0
    refine ⟨wlist, hchain, ?_⟩
    rw [← hInv'.hNOWL]
    exact heq

/-- C3: whenever `find_shorted_path` returns `(route, w)`, the route is
non-empty, its first vertex is a member of the given start set that is
known to the engine (survives the filtering), and its last vertex is a
member of the given end set that is known to the engine. -/
theorem dijkstra_c3_endpoints {V α : Type} [DecidableEq V] [Inhabited V]
    (W : WeightOps α) (list : List V) (edgesOf : V → List (V × α))
    (starts ends : List V) (route : List V) (w : α)
    (hok : findShortedPath W (Dijkstra.new list) edgesOf starts ends =
      FSPResult.ok route w) :
    route ≠ [] ∧
    (∃ v, route.head? = some v ∧ v ∈ starts ∧
      (hmGet (Dijkstra.new list).v_to_index_map v).isSome) ∧
    (∃ u, route.getLast? = some u ∧ u ∈ ends ∧
      (hmGet (Dijkstra.new list).v_to_index_map u).isSome) := by
  rw [fsp_unfold] at hok
  split at hok
  · exact FSPResult.noConfusion hok
  · rename_i p heap1 hpop
    obtain ⟨bt', now', hnowE, hrec⟩ := loop_ok_exit _ _ _ _ _ _ _ route w hok
    obtain ⟨j, hjS, hhead⟩ := reconstruct_head _ now' [] route hrec
    obtain ⟨v, hv_starts, hvj⟩ :=
      (mem_filtered_iff (Dijkstra.new list) starts j).mp hjS
    have hgj : (Dijkstra.new list).graph.getD j default = v :=
      get?_getD _ _ _ _ (new_map_get? hvj)
    obtain ⟨u, hu_ends, huj⟩ :=
      (mem_filtered_iff (Dijkstra.new list) ends now').mp hnowE
    have hgu : (Dijkstra.new list).graph.getD now' default = u :=
      get?_getD _ _ _ _ (new_map_get? huj)
    have hlast := reconstruct_last _ now' [] route hrec
    refine ⟨?_, ⟨v, ?_, hv_starts, by rw [hvj]; rfl⟩,
      ⟨u, ?_, hu_ends, by rw [huj]; rfl⟩⟩
    · intro hnil
      rw [hnil] at hhead
      exact Option.noConfusion hhead
    · rw [hhead, hgj]
    · rw [hlast, List.getLast?_singleton, hgu]

end TopLevel

/-- C6: when no vertex of the start set is known to the engine (the
filtered start set is empty), `find_shorted_path` does not return a value:
the initial `pop().unwrap()` on the empty frontier panics, modelled by the
`panicPop` outcome, rather than yielding a result or an error value. -/
theorem dijkstra_c6_empty_start_panics {V α : Type} [DecidableEq V] [Inhabited V]
    (W : WeightOps α) (list : List V) (edgesOf : V → List (V × α))
    (starts ends : List V)
    (hempty : ∀ v ∈ starts, hmGet (Dijkstra.new list).v_to_index_map v = none) :
    findShortedPath W (Dijkstra.new list) edgesOf starts ends =
      FSPResult.panicPop := by
  rw [fsp_unfold]
  have h1 : starts.filterMap (hmGet (Dijkstra.new list).v_to_index_map) = [] :=
    List.filterMap_eq_nil_iff.mpr hempty
  rw [h1]
  rfl

/-- C8: `Dijkstra::new` stores the vertex references in iteration order
(`graph = list`), maps every vertex of the list to an index, and the index
an identity maps to is exactly the position of its last occurrence in the
list: the entry of a later equal vertex silently overwrites the earlier
one's, while the ordered vertex list still contains both occurrences. -/
theorem dijkstra_c8_new_builds_index_map {V : Type} [DecidableEq V]
    (list : List V) :
    (Dijkstra.new list).graph = list ∧
    (∀ v ∈ list, ∃ k, hmGet (Dijkstra.new list).v_to_index_map v = some k) ∧
    (∀ v k, hmGet (Dijkstra.new list).v_to_index_map v = some k ↔
      (list.get? k = some v ∧ ∀ j, k < j → list.get? j ≠ some v)) := by
  refine ⟨rfl, ?_, ?_⟩
  · intro v hv
    obtain ⟨k, hk⟩ := lastIdx_mem list v hv
    exact ⟨k, by rw [new_map_eq_lastIdx]; exact hk⟩
  · intro v k
    rw [new_map_eq_lastIdx]
    constructor
    · intro h
      exact ⟨lastIdx_get? list v k h, lastIdx_last list v k h⟩
    · rintro ⟨hget, hlast⟩
      have hv : v ∈ list := List.get?_mem hget
      obtain ⟨k', hk'⟩ := lastIdx_mem list v hv
      have h1 := lastIdx_get? list v k' hk'
      have h2 := lastIdx_last list v k' hk'
      rcases Nat.lt_trichotomy k k' with h3 | h3 | h3
      · exact absurd h1 (hlast k' h3)
      · rw [← h3] at hk'
        exact hk'
      · exact absurd hget (h2 k h3)

/-- C5 (amended): in each relaxation step over one outgoing edge of the
current vertex, a visited destination is skipped entirely; for an
unvisited destination the tentative weight and backpointer are updated
exactly when the candidate `add(current_weight, edge_weight)` is strictly
below the recorded tentative weight — but a fresh frontier entry carrying
the (possibly updated) tentative weight of the destination is pushed
unconditionally in both cases, old entries being left in place.  The
original claim's "when candidate is not strictly smaller ... the frontier
is left unchanged" is false: the push at `dijkstra.rs:148` sits outside
the `if` of line 143 (see `dijkstra_c5_counterexample`). -/
theorem dijkstra_c5_relaxation_step {V α : Type} [DecidableEq V]
    (W : WeightOps α) (map : List (V × Nat)) (vis : List Bool) (now : Nat)
    (wsum : α) (st : TState α) (tv : V) (ew : α) (toI : Nat)
    (hget : hmGet map tv = some toI)
    (hlen : toI < st.weights.length) :
    (vis.getD toI false = true →
      relaxOne W map vis now wsum st (tv, ew) = some st) ∧
    (vis.getD toI false = false →
      W.cmp (st.weights.getD toI W.infinity) (W.add wsum ew) = Ordering.gt →
      relaxOne W map vis now wsum st (tv, ew) =
        some ⟨st.weights.set toI (W.add wsum ew), st.backtracker.set toI now,
          st.heap ++ [(toI, W.add wsum ew)]⟩) ∧
    (vis.getD toI false = false →
      W.cmp (st.weights.getD toI W.infinity) (W.add wsum ew) ≠ Ordering.gt →
      relaxOne W map vis now wsum st (tv, ew) =
        some ⟨st.weights, st.backtracker,
          st.heap ++ [(toI, st.weights.getD toI W.infinity)]⟩) := by
  refine ⟨?_, ?_, ?_⟩
  · intro hvis
    simp only [relaxOne, hget, hvis]
    rfl
  · intro hvis hc
    simp only [relaxOne, hget, hvis]
    simp only [Bool.false_eq_true, if_false, hc, if_true]
    rw [getD_set_self st.weights toI (W.add wsum ew) W.infinity hlen]
  · intro hvis hc
    simp only [relaxOne, hget, hvis]
    simp only [Bool.false_eq_true, if_false, if_neg hc]

/-- C9: through the relaxation loop of one vertex (the only place the
tentative weights and backpointers are mutated, the per-start
initialisation aside), the weight and the backpointer of every vertex
already marked visited are left untouched — relaxation skips visited
destinations — and any vertex whose backpointer changed had its tentative
weight strictly decreased.  Together with the facts that `loopGo` only
ever adds to the visited set and mutates weights only through
`relaxEdges`, this is the claimed execution-wide invariant. -/
theorem dijkstra_c9_visited_frozen {V α : Type} [DecidableEq V]
    (W : WeightOps α) (hW : LawfulW W) (map : List (V × Nat)) (vis : List Bool)
    (now : Nat) (wsum : α) (es : List (V × α)) (ws : List α) (bt : List Nat)
    (heap : List (Nat × α)) (st' : TState α)
    (hlen : bt.length ≤ ws.length)
    (h : relaxEdges W map vis now wsum es ⟨ws, bt, heap⟩ = some st') :
    (∀ v, vis.getD v false = true →
      st'.weights.getD v W.infinity = ws.getD v W.infinity ∧
      st'.backtracker.getD v 0 = bt.getD v 0) ∧
    (∀ v, st'.backtracker.getD v 0 ≠ bt.getD v 0 →
      wlt W (st'.weights.getD v W.infinity) (ws.getD v W.infinity)) := by
  have main := relaxEdges_pres
    (fun st => st.backtracker.length ≤ st.weights.length ∧
      (∀ v, vis.getD v false = true →
        st.weights.getD v W.infinity = ws.getD v W.infinity ∧
        st.backtracker.getD v 0 = bt.getD v 0) ∧
      (∀ v, st.weights.getD v W.infinity = ws.getD v W.infinity ∨
        wlt W (st.weights.getD v W.infinity) (ws.getD v W.infinity)) ∧
      (∀ v, st.backtracker.getD v 0 ≠ bt.getD v 0 →
        wlt W (st.weights.getD v W.infinity) (ws.getD v W.infinity)))
    es ⟨ws, bt, heap⟩ st' ?_ h
    ⟨hlen, fun v _ => ⟨rfl, rfl⟩, fun v => Or.inl rfl,
      fun v hne => absurd rfl hne⟩
  · exact ⟨main.2.1, main.2.2.2⟩
  · intro p st1 st2 _ hone ⟨ih0, ih1, ih2, ih3⟩
    obtain ⟨toI, hget, hcases⟩ := relaxOne_cases hone
    rcases hcases with ⟨hvisT, hst⟩ | ⟨hvisT, hcases2⟩
    · exact hst ▸ ⟨ih0, ih1, ih2, ih3⟩
    rcases hcases2 with ⟨hc, hst⟩ | ⟨hc, hst⟩
    · subst hst
      have hlt : wlt W (W.add wsum p.2) (st1.weights.getD toI W.infinity) :=
        (cmp_gt_iff hW _ _).mp hc
      have hlt_ws : wlt W (W.add wsum p.2) (ws.getD toI W.infinity) := by
        rcases ih2 toI with h1 | h1
        · exact h1 ▸ hlt
        · exact wlt_trans hW hlt h1
      refine ⟨?_, ?_, ?_, ?_⟩
      · show (st1.backtracker.set toI now).length ≤
          (st1.weights.set toI (W.add wsum p.2)).length
        rw [List.length_set, List.length_set]
        exact ih0
      · intro v hv
        have hvne : v ≠ toI := by
          intro hEq
          rw [hEq, hvisT] at hv
          exact Bool.noConfusion hv
        constructor
        · show ((st1.weights.set toI (W.add wsum p.2)).getD v W.infinity) = _
          rw [getD_set_ne _ _ _ _ _ (fun hh => hvne hh.symm)]
          exact (ih1 v hv).1
        · show ((st1.backtracker.set toI now).getD v 0) = _
          rw [getD_set_ne _ _ _ _ _ (fun hh => hvne hh.symm)]
          exact (ih1 v hv).2
      · intro v
        by_cases hveq : v = toI
        · subst hveq
          by_cases hin : v < st1.weights.length
          · refine Or.inr ?_
            show wlt W ((st1.weights.set v (W.add wsum p.2)).getD v W.infinity) _
            rw [getD_set_self _ _ _ _ hin]
            exact hlt_ws
          · show (st1.weights.set v (W.add wsum p.2)).getD v W.infinity = _ ∨
              wlt W ((st1.weights.set v (W.add wsum p.2)).getD v W.infinity) _
            rw [List.set_eq_of_length_le (Nat.le_of_not_lt hin)]
            exact ih2 v
        · show (st1.weights.set toI (W.add wsum p.2)).getD v W.infinity = _ ∨
            wlt W ((st1.weights.set toI (W.add wsum p.2)).getD v W.infinity) _
          rw [getD_set_ne _ _ _ _ _ (fun hh => hveq hh.symm)]
          exact ih2 v
      · intro v hne
        by_cases hveq : v = toI
        · subst hveq
          by_cases hin : v < st1.weights.length
          · show wlt W ((st1.weights.set v (W.add wsum p.2)).getD v W.infinity) _
            rw [getD_set_self _ _ _ _ hin]
            exact hlt_ws
          · revert hne
            have hbge : st1.backtracker.length ≤ v :=
              Nat.le_trans ih0 (Nat.le_of_not_lt hin)
            show ((st1.backtracker.set v now).getD v 0) ≠ _ → wlt W
              ((st1.weights.set v (W.add wsum p.2)).getD v W.infinity) _
            rw [List.set_eq_of_length_le (Nat.le_of_not_lt hin),
              List.set_eq_of_length_le hbge]
            exact ih3 v
        · revert hne
          show ((st1.backtracker.set toI now).getD v 0) ≠ _ → wlt W
            ((st1.weights.set toI (W.add wsum p.2)).getD v W.infinity) _
          rw [getD_set_ne _ _ _ _ _ (fun hh => hveq hh.symm),
            getD_set_ne _ _ _ _ _ (fun hh => hveq hh.symm)]
          exact ih3 v
    · subst hst
      exact ⟨ih0, ih1, ih2, ih3⟩

section PanicLemmas

variable {V : Type} [DecidableEq V] [Inhabited V] {α : Type} {W : WeightOps α}
variable {D : Dijkstra V} {edgesOf : V → List (V × α)} {S E : List Nat}

theorem loop_c7
    (hmapb : ∀ v i, hmGet D.v_to_index_map v = some i → i < D.graph.length)
    (hclosed : ∀ u vu, D.graph.get? u = some vu → ∀ p ∈ edgesOf vu,
      (hmGet D.v_to_index_map p.1).isSome)
    (hnoend : ∀ e ∈ E, ¬ ReachIdx D edgesOf S e) :
    ∀ (fuel : Nat) (ws : List α) (bt : List Nat) (vis : List Bool)
      (heap : List (Nat × α)) (now : Nat) (wsum : α),
    countFalse vis < fuel →
    vis.length = D.graph.length →
    now < D.graph.length →
    vis.getD now false = false →
    ReachIdx D edgesOf S now →
    (∀ e ∈ heap, e.1 < D.graph.length ∧ ReachIdx D edgesOf S e.1) →
    loopGo W D edgesOf S E fuel ws bt vis heap now wsum =
      FSPResult.panicPop := by
  intro fuel
  induction fuel with
  | zero =>
      intro ws bt vis heap now wsum hfuel
      omega
  | succ f ih =>
      intro ws bt vis heap now wsum hfuel hvlen hnlt hvnow hrnow hheap
      have hvnowsome : D.graph.get? now = some (D.graph.getD now default) :=
        getD_get? D.graph now default hnlt
      have hnotE : now ∉ E := fun hmem => hnoend now hmem hrnow
      simp only [loopGo]
      rw [if_neg hnotE]
      cases hrel : relaxEdges W D.v_to_index_map vis now wsum
          (edgesOf (D.graph.getD now default)) ⟨ws, bt, heap⟩ with
      | none =>
          exfalso
          obtain ⟨p, hp, hpn⟩ := relax_none _ _ hrel
          have := hclosed now (D.graph.getD now default) hvnowsome p hp
          rw [hpn] at this
          exact Bool.noConfusion this
      | some st =>
          show (match popUnvisited W (vis.set now true) (st.heap.length + 1)
              st.heap with
            | none => FSPResult.panicPop
            | some (p, heap') =>
                loopGo W D edgesOf S E f st.weights st.backtracker
                  (vis.set now true) heap' p.1 p.2) = FSPResult.panicPop
          have hst_facts : ∀ e ∈ st.heap,
              e.1 < D.graph.length ∧ ReachIdx D edgesOf S e.1 := by
            obtain ⟨pushed, happ, hpf⟩ := relax_heap_shape hrel
            intro e he
            rw [happ] at he
            rcases List.mem_append.mp he with h1 | h1
            · exact hheap e h1
            · obtain ⟨q, hq, toI, hlook, heto, _⟩ := hpf e h1
              refine ⟨heto ▸ hmapb q.1 toI hlook, ?_⟩
              rw [heto]
              exact ReachIdx.step now toI q.2 hrnow
                ⟨D.graph.getD now default, hvnowsome, q.1, hq, hlook⟩
          cases hpop : popUnvisited W (vis.set now true) (st.heap.length + 1)
              st.heap with
          | none => rfl
          | some pr =>
              obtain ⟨p, heap3⟩ := pr
              have hnow_len : now < vis.length := by rw [hvlen]; exact hnlt
              have hcount : countFalse (vis.set now true) < countFalse vis :=
                countFalse_set_true vis now hnow_len hvnow
              have hp_mem : p ∈ st.heap := pu_mem _ _ _ p heap3 hpop
              exact ih st.weights st.backtracker (vis.set now true) heap3 p.1 p.2
                (by omega) (by rw [List.length_set]; exact hvlen)
                (hst_facts p hp_mem).1
                (pu_unvisited _ _ _ p heap3 hpop)
                (hst_facts p hp_mem).2
                (fun e he => hst_facts e (pu_subset _ _ _ p heap3 hpop e he))

theorem loop_c10
    (hmapb : ∀ v i, hmGet D.v_to_index_map v = some i → i < D.graph.length)
    (hclosed : ∀ u vu, D.graph.get? u = some vu → ∀ p ∈ edgesOf vu,
      (hmGet D.v_to_index_map p.1).isSome) :
    ∀ (fuel : Nat) (ws : List α) (bt : List Nat) (vis : List Bool)
      (heap : List (Nat × α)) (now : Nat) (wsum : α),
    now < D.graph.length →
    (∀ e ∈ heap, e.1 < D.graph.length) →
    loopGo W D edgesOf S E fuel ws bt vis heap now wsum ≠
      FSPResult.panicLookup := by
  intro fuel
  induction fuel with
  | zero =>
      intro ws bt vis heap now wsum _ _ h
      exact FSPResult.noConfusion h
  | succ f ih =>
      intro ws bt vis heap now wsum hnlt hheap
      have hvnowsome : D.graph.get? now = some (D.graph.getD now default) :=
        getD_get? D.graph now default hnlt
      simp only [loopGo]
      by_cases hnotE : now ∈ E
      · rw [if_pos hnotE]
        cases hrec : reconstruct D.graph bt S (D.graph.length + 1) now [] with
        | none => exact fun h => FSPResult.noConfusion h
        | some route => exact fun h => FSPResult.noConfusion h
      · rw [if_neg hnotE]
        cases hrel : relaxEdges W D.v_to_index_map vis now wsum
            (edgesOf (D.graph.getD now default)) ⟨ws, bt, heap⟩ with
        | none =>
            exfalso
            obtain ⟨p, hp, hpn⟩ := relax_none _ _ hrel
            have := hclosed now (D.graph.getD now default) hvnowsome p hp
            rw [hpn] at this
            exact Bool.noConfusion this
        | some st =>
            show (match popUnvisited W (vis.set now true) (st.heap.length + 1)
                st.heap with
              | none => FSPResult.panicPop
              | some (p, heap') =>
                  loopGo W D edgesOf S E f st.weights st.backtracker
                    (vis.set now true) heap' p.1 p.2) ≠ FSPResult.panicLookup
            have hst_facts : ∀ e ∈ st.heap, e.1 < D.graph.length := by
              obtain ⟨pushed, happ, hpf⟩ := relax_heap_shape hrel
              intro e he
              rw [happ] at he
              rcases List.mem_append.mp he with h1 | h1
              · exact hheap e h1
              · obtain ⟨q, _, toI, hlook, heto, _⟩ := hpf e h1
                exact heto ▸ hmapb q.1 toI hlook
            cases hpop : popUnvisited W (vis.set now true) (st.heap.length + 1)
                st.heap with
            | none => exact fun h => FSPResult.noConfusion h
            | some pr =>
                obtain ⟨p, heap3⟩ := pr
                exact ih st.weights st.backtracker (vis.set now true) heap3
                  p.1 p.2 (hst_facts p (pu_mem _ _ _ p heap3 hpop))
                  (fun e he => hst_facts e (pu_subset _ _ _ p heap3 hpop e he))

end PanicLemmas

/-- C7: on a graph whose edge destinations are all known to the engine,
for every query with a non-empty filtered start set from which no vertex
of the filtered end set is reachable, the loop keeps discarding and
relaxing until the frontier is exhausted before any end vertex is popped,
and `find_shorted_path` crashes on the `pop().unwrap()` of the empty
frontier (the `panicPop` outcome) instead of returning a "no path" value.
(The all-destinations-known precondition keeps the earlier
`v_to_index_map.get(..).unwrap()` panic of C10 out of the way; without it
the crash can happen at that lookup instead.) -/
theorem dijkstra_c7_no_path_panics {V α : Type} [DecidableEq V] [Inhabited V]
    (W : WeightOps α) (list : List V) (edgesOf : V → List (V × α))
    (starts ends : List V)
    (hclosed : ∀ u vu, (Dijkstra.new list).graph.get? u = some vu →
      ∀ p ∈ edgesOf vu, (hmGet (Dijkstra.new list).v_to_index_map p.1).isSome)
    (_hS : dedupFirst []
      (starts.filterMap (hmGet (Dijkstra.new list).v_to_index_map)) ≠ [])
    (hnoend : ∀ e ∈ dedupFirst []
        (ends.filterMap (hmGet (Dijkstra.new list).v_to_index_map)),
      ¬ ReachIdx (Dijkstra.new list) edgesOf
        (dedupFirst []
          (starts.filterMap (hmGet (Dijkstra.new list).v_to_index_map))) e) :
    findShortedPath W (Dijkstra.new list) edgesOf starts ends =
      FSPResult.panicPop := by
  have hmapb : ∀ v i, hmGet (Dijkstra.new list).v_to_index_map v = some i →
      i < (Dijkstra.new list).graph.length := fun v i h => new_map_lt h
  have hSlt : ∀ i ∈ dedupFirst []
      (starts.filterMap (hmGet (Dijkstra.new list).v_to_index_map)),
      i < (Dijkstra.new list).graph.length := by
    intro i hi
    obtain ⟨v, _, hvi⟩ := (mem_filtered_iff (Dijkstra.new list) starts i).mp hi
    exact new_map_lt hvi
  have hbound : ∀ i ∈ dedupFirst []
      (starts.filterMap (hmGet (Dijkstra.new list).v_to_index_map)),
      i < (List.replicate (Dijkstra.new list).graph.length (W.infinity : α)).length := by
    intro i hi
    rw [List.length_replicate]
    exact hSlt i hi
  obtain ⟨_, hheap0, _, _⟩ := initStarts_spec
    (dedupFirst [] (starts.filterMap (hmGet (Dijkstra.new list).v_to_index_map)))
    (List.replicate (Dijkstra.new list).graph.length W.infinity) [] hbound
  rw [fsp_unfold]
  cases hpop : heapPop W (initStarts W
      (dedupFirst [] (starts.filterMap (hmGet (Dijkstra.new list).v_to_index_map)))
      (List.replicate (Dijkstra.new list).graph.length W.infinity) []).2 with
  | none => rfl
  | some pr =>
      obtain ⟨p, heap1⟩ := pr
      have hp_mem := heapPop_mem _ p heap1 hpop
      rw [hheap0] at hp_mem
      simp only [List.nil_append] at hp_mem
      obtain ⟨i, hiS, hip⟩ := List.mem_map.mp hp_mem
      have hp1S : p.1 ∈ dedupFirst []
          (starts.filterMap (hmGet (Dijkstra.new list).v_to_index_map)) := by
        rw [← hip]
        exact hiS
      have hheap1 : ∀ e ∈ heap1, e.1 < (Dijkstra.new list).graph.length ∧
          ReachIdx (Dijkstra.new list) edgesOf
            (dedupFirst []
              (starts.filterMap (hmGet (Dijkstra.new list).v_to_index_map)))
            e.1 := by
        intro e he
        have := heapPop_subset _ p heap1 hpop e he
        rw [hheap0] at this
        simp only [List.nil_append] at this
        obtain ⟨j, hjS, hje⟩ := List.mem_map.mp this
        have hej : e.1 = j := by rw [← hje]
        rw [hej]
        exact ⟨hSlt j hjS, ReachIdx.base j hjS⟩
      exact loop_c7 hmapb hclosed hnoend _ _ _ _ _ _ _
        (by rw [countFalse_replicate]; omega)
        (List.length_replicate _ _) (hSlt p.1 hp1S)
        (getD_replicate_self _ _ _) (ReachIdx.base p.1 hp1S) hheap1

/-- C10: the destination filtering applied to starts and ends is not
applied to edges: scanning an outgoing edge whose destination vertex is
unknown to the engine makes `v_to_index_map.get(&to_vertex).unwrap()`
panic (first conjunct: a concrete graph whose vertex 0 points at the
unknown vertex 7 crashes with the `panicLookup` outcome), while under the
precondition that every edge destination of every known vertex is known,
that failure branch is unreachable for every query (second conjunct). -/
theorem dijkstra_c10_unknown_destination :
    (findShortedPath optW cex10D cex10Edges [0] [1] = FSPResult.panicLookup) ∧
    (∀ (V α : Type) [DecidableEq V] [Inhabited V] (W : WeightOps α)
      (list : List V) (edgesOf : V → List (V × α)) (starts ends : List V),
      (∀ u vu, (Dijkstra.new list).graph.get? u = some vu →
        ∀ p ∈ edgesOf vu,
          (hmGet (Dijkstra.new list).v_to_index_map p.1).isSome) →
      findShortedPath W (Dijkstra.new list) edgesOf starts ends ≠
        FSPResult.panicLookup) := by
  constructor
  · decide
  · intro V α _ _ W list edgesOf starts ends hclosed
    have hmapb : ∀ v i, hmGet (Dijkstra.new list).v_to_index_map v = some i →
        i < (Dijkstra.new list).graph.length := fun v i h => new_map_lt h
    have hSlt : ∀ i ∈ dedupFirst []
        (starts.filterMap (hmGet (Dijkstra.new list).v_to_index_map)),
        i < (Dijkstra.new list).graph.length := by
      intro i hi
      obtain ⟨v, _, hvi⟩ := (mem_filtered_iff (Dijkstra.new list) starts i).mp hi
      exact new_map_lt hvi
    have hbound : ∀ i ∈ dedupFirst []
        (starts.filterMap (hmGet (Dijkstra.new list).v_to_index_map)),
        i < (List.replicate (Dijkstra.new list).graph.length
          (W.infinity : α)).length := by
      intro i hi
      rw [List.length_replicate]
      exact hSlt i hi
    obtain ⟨_, hheap0, _, _⟩ := initStarts_spec
      (dedupFirst []
        (starts.filterMap (hmGet (Dijkstra.new list).v_to_index_map)))
      (List.replicate (Dijkstra.new list).graph.length W.infinity) [] hbound
    rw [fsp_unfold]
    cases hpop : heapPop W (initStarts W
        (dedupFirst []
          (starts.filterMap (hmGet (Dijkstra.new list).v_to_index_map)))
        (List.replicate (Dijkstra.new list).graph.length W.infinity) []).2 with
    | none => exact fun h => FSPResult.noConfusion h
    | some pr =>
        obtain ⟨p, heap1⟩ := pr
        have hp_mem := heapPop_mem _ p heap1 hpop
        rw [hheap0] at hp_mem
        simp only [List.nil_append] at hp_mem
        obtain ⟨i, hiS, hip⟩ := List.mem_map.mp hp_mem
        have hp1lt : p.1 < (Dijkstra.new list).graph.length := by
          rw [← hip]
          exact hSlt i hiS
        have hheap1 : ∀ e ∈ heap1, e.1 < (Dijkstra.new list).graph.length := by
          intro e he
          have := heapPop_subset _ p heap1 hpop e he
          rw [hheap0] at this
          simp only [List.nil_append] at this
          obtain ⟨j, hjS, hje⟩ := List.mem_map.mp this
          have hej : e.1 = j := by rw [← hje]
          rw [hej]
          exact hSlt j hjS
        exact loop_c10 hmapb hclosed _ _ _ _ _ _ _ hp1lt hheap1

/-- C4 (amended): for a graph over a monotonic non-negative (lawful)
weight algebra, whenever some vertex known to the engine is a member of
both the start set and the end set and `find_shorted_path` returns a
`(route, w)` pair, the returned total weight `w` is equivalent to the
algebra's `zero` under its comparison (`w` is at most `zero` and at least
`zero`).  The original single-vertex-with-weight-`zero` conclusion is
false: with negative weights even the weight part fails (see
`dijkstra_c4_counterexample`), and with non-negative weights the
unspecified `BinaryHeap` order among equal-weight frontier entries lets a
different zero-weight end vertex exit first, returning a route of more
than one vertex; the query returning at all is likewise not guaranteed
(the panics of C6, C7 and C10), so the claim is conditional on the
return.  This property is independent of the pop order among ties: it
only uses that a pop removes a minimal entry. -/
theorem dijkstra_c4_weight_equiv_zero {V α : Type} [DecidableEq V] [Inhabited V]
    (W : WeightOps α) (list : List V) (edgesOf : V → List (V × α))
    (starts ends : List V) (x : V) (route : List V) (w : α)
    (hW : LawfulW W)
    (hxs : x ∈ starts) (hxe : x ∈ ends)
    (hxk : (hmGet (Dijkstra.new list).v_to_index_map x).isSome)
    (hok : findShortedPath W (Dijkstra.new list) edgesOf starts ends =
      FSPResult.ok route w) :
    wle W w W.zero ∧ wle W W.zero w := by
  have hmapb : ∀ v i, hmGet (Dijkstra.new list).v_to_index_map v = some i →
      i < (Dijkstra.new list).graph.length := fun v i h => new_map_lt h
  obtain ⟨ix, hix⟩ := Option.isSome_iff_exists.mp hxk
  have hixS : ix ∈ dedupFirst []
      (starts.filterMap (hmGet (Dijkstra.new list).v_to_index_map)) :=
    (mem_filtered_iff (Dijkstra.new list) starts ix).mpr ⟨x, hxs, hix⟩
  have hixE : ix ∈ dedupFirst []
      (ends.filterMap (hmGet (Dijkstra.new list).v_to_index_map)) :=
    (mem_filtered_iff (Dijkstra.new list) ends ix).mpr ⟨x, hxe, hix⟩
  rw [fsp_unfold] at hok
  split at hok
  · exact FSPResult.noConfusion hok
  · rename_i p heap1 hpop
    have hSlt : ∀ i ∈ dedupFirst []
        (starts.filterMap (hmGet (Dijkstra.new list).v_to_index_map)),
        i < (Dijkstra.new list).graph.length := by
      intro i hi
      obtain ⟨v, _, hvi⟩ := (mem_filtered_iff (Dijkstra.new list) starts i).mp hi
      exact new_map_lt hvi
    have hInv := @inv_init V _ _ W (Dijkstra.new list) edgesOf
      (dedupFirst [] (starts.filterMap (hmGet (Dijkstra.new list).v_to_index_map)))
      (dedupFirst [] (ends.filterMap (hmGet (Dijkstra.new list).v_to_index_map)))
      hW hSlt _ _ hpop
    obtain ⟨ws', bt', vis', heap', now', hInv', _, _⟩ :=
      loop_ok_master hW hmapb _ _ _ _ _ _ _ route w hInv hok
    constructor
    · exact hInv'.hG ix W.zero (hInv'.hJ ix hixE) (Reach.base ix hixS)
    · rcases hInv'.hC now' with h1 | h1
      · rw [← hInv'.hNOWL, h1]
        exact hW.le_infinity W.zero
      · rw [← hInv'.hNOWL]
        exact zero_le_reach hW h1

section ConcreteAlg

theorem natCompare_swap (a b : Nat) : (compare a b).swap = compare b a := by
  rcases Nat.lt_trichotomy a b with h | h | h
  · rw [Nat.compare_eq_lt.mpr h, Nat.compare_eq_gt.mpr h]
    rfl
  · rw [h, Nat.compare_eq_eq.mpr rfl]
    rfl
  · rw [Nat.compare_eq_gt.mpr h, Nat.compare_eq_lt.mpr h]
    rfl

theorem optW_wle_some_iff (x y : Nat) : wle optW (some x) (some y) ↔ x ≤ y := by
  show ¬ compare x y = Ordering.gt ↔ x ≤ y
  rw [Nat.compare_eq_gt]
  omega

/-- The `Option Nat` algebra (`none` as infinity) satisfies the spec's
weight-algebra contract. -/
theorem optW_lawful : LawfulW optW := by
  constructor
  · intro a b
    cases a with
    | none =>
        cases b with
        | none => rfl
        | some y => rfl
    | some x =>
        cases b with
        | none => rfl
        | some y => exact natCompare_swap x y
  · intro a b c h1 h2
    cases a with
    | none =>
        cases b with
        | none =>
            cases c with
            | none => exact h1
            | some z => exact h2
        | some y => exact absurd rfl h1
    | some x =>
        cases c with
        | none => intro hgt; exact Ordering.noConfusion hgt
        | some z =>
            cases b with
            | none => exact absurd rfl h2
            | some y =>
                rw [optW_wle_some_iff] at h1 h2 ⊢
                omega
  · intro a b
    cases a with
    | none => intro hgt; exact Ordering.noConfusion hgt
    | some x =>
        cases b with
        | none => intro hgt; exact Ordering.noConfusion hgt
        | some y =>
            rw [show optW.add (some x) (some y) = some (x + y) from rfl,
              optW_wle_some_iff]
            omega
  · intro a b c h1
    cases a with
    | none =>
        cases b with
        | none =>
            cases c with
            | none => exact h1
            | some z => intro hgt; exact Ordering.noConfusion hgt
        | some y => exact absurd rfl h1
    | some x =>
        cases b with
        | none =>
            cases c with
            | none => intro hgt; exact Ordering.noConfusion hgt
            | some z => intro hgt; exact Ordering.noConfusion hgt
        | some y =>
            cases c with
            | none => intro hgt; exact Ordering.noConfusion hgt
            | some z =>
                rw [optW_wle_some_iff] at h1
                rw [show optW.add (some x) (some z) = some (x + z) from rfl,
                  show optW.add (some y) (some z) = some (y + z) from rfl,
                  optW_wle_some_iff]
                omega
  · intro a
    cases a with
    | none => intro hgt; exact Ordering.noConfusion hgt
    | some x => intro hgt; exact Ordering.noConfusion hgt

end ConcreteAlg

/-- In a graph with no edges nothing outside the start set is reachable. -/
theorem noReach_of_noEdges {V : Type} [DecidableEq V] {α : Type}
    (D : Dijkstra V) (S : List Nat) (e : Nat) (he : e ∉ S) :
    ¬ ReachIdx D (fun _ => ([] : List (V × α))) S e := by
  intro h
  cases h with
  | base i hi => exact he hi
  | step u v w _ hEdge =>
      obtain ⟨vu, _, tv, htv, _⟩ := hEdge
      exact List.not_mem_nil _ htv

/-- C2 counterexample: on the graph 0→1 of weight `infinity`, 1→2 of
weight 0, querying 0 to 2 returns the route `[0, 2]` with weight
`infinity` — yet no edge connects 0 to 2, so no edge-weight list sums to
the returned weight along the returned route. -/
theorem dijkstra_c2_counterexample :
    findShortedPath optW cex2D cex2Edges [0] [2] =
      FSPResult.ok [0, 2] none ∧
    ¬ ∃ wlist, EdgeChain cex2Edges [0, 2] wlist ∧
      (none : Option Nat) = List.foldl optW.add optW.zero wlist := by
  refine ⟨by decide, ?_⟩
  rintro ⟨wlist, hchain, _⟩
  cases wlist with
  | nil => exact hchain
  | cons w ws =>
      rcases hchain with ⟨hmem, _⟩
      simp [cex2Edges] at hmem

/-- C4 counterexample: with the integer algebra (negative weights allowed)
on the graph 0→2 of weight −5, vertex 1 is known to the engine and lies in
both the start set `[0, 1]` and the end set `[1, 2]`, yet the query
returns the two-vertex route `[0, 2]` with weight −5, not a single-vertex
route of weight `zero`. -/
theorem dijkstra_c4_counterexample :
    (hmGet cex4D.v_to_index_map 1).isSome = true ∧
    (1 : Nat) ∈ [0, 1] ∧ (1 : Nat) ∈ [1, 2] ∧
    findShortedPath intW cex4D cex4Edges [0, 1] [1, 2] =
      FSPResult.ok [0, 2] (-5) ∧
    ¬ ∃ v, findShortedPath intW cex4D cex4Edges [0, 1] [1, 2] =
      FSPResult.ok [v] intW.zero := by
  refine ⟨by decide, by decide, by decide, by decide, ?_⟩
  rintro ⟨v, hv⟩
  rw [show findShortedPath intW cex4D cex4Edges [0, 1] [1, 2] =
    FSPResult.ok [0, 2] (-5) from by decide] at hv
  simp at hv

/-- C5 counterexample: a relaxation step over one edge whose candidate
weight (0 + 5 = 5) is NOT strictly below the destination's recorded
tentative weight (3) still pushes a fresh frontier entry `(1, 3)`: the
push at `dijkstra.rs:148` is outside the `if` of line 143, so the
frontier does not stay unchanged in the not-strictly-smaller case. -/
theorem dijkstra_c5_counterexample :
    relaxOne optW [(0, 0), (1, 1)] [false, false] 0 (some 0)
      ⟨[some 0, some 3], [0, 0], []⟩ ((1 : Nat), some 5) =
      some ⟨[some 0, some 3], [0, 0], [((1 : Nat), some 3)]⟩ ∧
    optW.cmp (([some 0, some 3] : List (Option Nat)).getD 1 optW.infinity)
      (optW.add (some 0) (some 5)) ≠ Ordering.gt ∧
    ([((1 : Nat), some 3)] : List (Nat × Option Nat)) ≠ [] := by
  refine ⟨rfl, by decide, by decide⟩

theorem dijkstra_c1_witness :
    (∀ e ∈ dedupFirst [] (([3] : List Nat).filterMap
        (hmGet (Dijkstra.new ([0, 1, 2, 3] : List Nat)).v_to_index_map)),
      ∀ s, Reach optW (Dijkstra.new [0, 1, 2, 3]) testEdges
        (dedupFirst [] (([0] : List Nat).filterMap
          (hmGet (Dijkstra.new ([0, 1, 2, 3] : List Nat)).v_to_index_map))) e s →
        wle optW (some 15) s) ∧
    (∃ e ∈ dedupFirst [] (([3] : List Nat).filterMap
        (hmGet (Dijkstra.new ([0, 1, 2, 3] : List Nat)).v_to_index_map)),
      ∃ s, Reach optW (Dijkstra.new [0, 1, 2, 3]) testEdges
        (dedupFirst [] (([0] : List Nat).filterMap
          (hmGet (Dijkstra.new ([0, 1, 2, 3] : List Nat)).v_to_index_map))) e s ∧
        wle optW s (some 15)) :=
  dijkstra_c1_min_total_weight optW [0, 1, 2, 3] testEdges [0] [3] [0, 2, 3]
    (some 15) optW_lawful (by decide)
    ⟨3, by decide, ReachIdx.step 0 3 (some 20) (ReachIdx.base 0 (by decide))
      ⟨0, rfl, 3, by decide, by decide⟩⟩
    (by decide)

theorem dijkstra_c2_witness :
    ∃ wlist, EdgeChain testEdges [0, 2, 3] wlist ∧
      (some 15 : Option Nat) = List.foldl optW.add optW.zero wlist :=
  dijkstra_c2_weight_eq_path_sum optW [0, 1, 2, 3] testEdges [0] [3] [0, 2, 3]
    (some 15) optW_lawful (by decide) (by decide)

theorem dijkstra_c3_witness :
    ([0, 2, 3] : List Nat) ≠ [] ∧
    (∃ v, ([0, 2, 3] : List Nat).head? = some v ∧ v ∈ [0] ∧
      (hmGet (Dijkstra.new ([0, 1, 2, 3] : List Nat)).v_to_index_map v).isSome) ∧
    (∃ u, ([0, 2, 3] : List Nat).getLast? = some u ∧ u ∈ [3] ∧
      (hmGet (Dijkstra.new ([0, 1, 2, 3] : List Nat)).v_to_index_map u).isSome) :=
  dijkstra_c3_endpoints optW [0, 1, 2, 3] testEdges [0] [3] [0, 2, 3] (some 15)
    (by decide)

theorem dijkstra_c4_witness :
    wle optW (some 0) optW.zero ∧ wle optW optW.zero (some 0) :=
  dijkstra_c4_weight_equiv_zero optW [0, 1] (fun _ => []) [0] [0] 0 [0] (some 0)
    optW_lawful (by decide) (by decide) (by decide) (by decide)

theorem dijkstra_c5_witness :
    (([false, false] : List Bool).getD 1 false = true →
      relaxOne optW [(0, 0), (1, 1)] [false, false] 0 (some 0)
        ⟨[some 0, some 3], [0, 0], []⟩ (1, some 5) =
        some ⟨[some 0, some 3], [0, 0], []⟩) ∧
    (([false, false] : List Bool).getD 1 false = false →
      optW.cmp (([some 0, some 3] : List (Option Nat)).getD 1 optW.infinity)
        (optW.add (some 0) (some 5)) = Ordering.gt →
      relaxOne optW [(0, 0), (1, 1)] [false, false] 0 (some 0)
        ⟨[some 0, some 3], [0, 0], []⟩ (1, some 5) =
        some ⟨([some 0, some 3] : List (Option Nat)).set 1
            (optW.add (some 0) (some 5)),
          ([0, 0] : List Nat).set 1 0,
          [] ++ [(1, optW.add (some 0) (some 5))]⟩) ∧
    (([false, false] : List Bool).getD 1 false = false →
      optW.cmp (([some 0, some 3] : List (Option Nat)).getD 1 optW.infinity)
        (optW.add (some 0) (some 5)) ≠ Ordering.gt →
      relaxOne optW [(0, 0), (1, 1)] [false, false] 0 (some 0)
        ⟨[some 0, some 3], [0, 0], []⟩ (1, some 5) =
        some ⟨[some 0, some 3], [0, 0],
          [] ++ [(1, ([some 0, some 3] : List (Option Nat)).getD 1
            optW.infinity)]⟩) :=
  dijkstra_c5_relaxation_step optW [(0, 0), (1, 1)] [false, false] 0 (some 0)
    ⟨[some 0, some 3], [0, 0], []⟩ 1 (some 5) 1 rfl (by decide)

theorem dijkstra_c6_witness :
    findShortedPath optW (Dijkstra.new [0]) (fun _ => []) [5] [0] =
      FSPResult.panicPop :=
  dijkstra_c6_empty_start_panics optW [0] (fun _ => []) [5] [0] (by decide)

theorem dijkstra_c7_witness :
    findShortedPath optW (Dijkstra.new [0, 1]) (fun _ => []) [0] [1] =
      FSPResult.panicPop :=
  dijkstra_c7_no_path_panics optW [0, 1] (fun _ => []) [0] [1]
    (fun _ _ _ p hp => absurd hp (List.not_mem_nil p))
    (by decide)
    (by
      intro e he
      have he' : e ∈ ([1] : List Nat) := he
      rw [List.mem_singleton] at he'
      subst he'
      exact noReach_of_noEdges _ _ 1 (by decide))

theorem dijkstra_c9_witness :
    (∀ v, ([true, false] : List Bool).getD v false = true →
      ([some 0, some 5] : List (Option Nat)).getD v optW.infinity =
        ([some 0, none] : List (Option Nat)).getD v optW.infinity ∧
      ([0, 0] : List Nat).getD v 0 = ([0, 0] : List Nat).getD v 0) ∧
    (∀ v, ([0, 0] : List Nat).getD v 0 ≠ ([0, 0] : List Nat).getD v 0 →
      wlt optW (([some 0, some 5] : List (Option Nat)).getD v optW.infinity)
        (([some 0, none] : List (Option Nat)).getD v optW.infinity)) :=
  dijkstra_c9_visited_frozen optW optW_lawful
    ([(0, 0), (1, 1)] : List (Nat × Nat)) [true, false] 0
    (some 0) ([(1, some 5)] : List (Nat × Option Nat)) [some 0, none] [0, 0] []
    ⟨[some 0, some 5], [0, 0], [(1, some 5)]⟩ (by decide) (by rfl)
